import Mathlib

/-!
Verification of the omfilesrspy OM-file core: a shallow embedding of the
buffered writer, the writer facade, the array encoder state, the caller
index layer, the reader's slice validation, and the variable-tree builder,
with theorems settling the specification claims about them.

Machine integers are modelled as `Nat`/`Int`; byte buffers as `List Nat`.
The backend is modelled as an in-memory byte sink (mirroring
`InMemoryBackend` in `src/backend/backends.rs`) extended with a counter of
`synchronize` invocations, so that flushing and syncing are observable.
-/

/-- Error type mirroring the variants of `OmFilesRsError` in `src/errors.rs`
that the verified operations can produce. -/
inductive OmError where
  | chunkHasWrongNumberOfElements : OmError
  | offsetAndCountExceedDimension : Nat → Nat → Nat → OmError
  | mismatchingCubeDimensionLength : OmError
  | invalidDataType : OmError
  deriving DecidableEq, Repr

/-- `divide_rounded_up` from `src/utils.rs`: ceiling division via remainder test. -/
def divideRoundedUp (value : Nat) (divisor : Nat) : Nat :=
  if value % divisor = 0 then value / divisor else value / divisor + 1

/-- Overwrite `data.length` bytes of `buf` starting at position `pos`
(the effect of writing into `buffer[pos..pos+len]`). -/
def listWriteAt (buf : List Nat) (pos : Nat) (data : List Nat) : List Nat :=
  buf.take pos ++ data ++ buf.drop (pos + data.length)

/-- State of `OmBufferedWriter` from `src/io/buffered_writer.rs`, with the
backend inlined as an in-memory byte sink (`backendData`, the bytes already
handed to `backend.write`) plus a counter of `backend.synchronize()` calls. -/
structure OmBufferedWriter where
  buffer : List Nat
  backendData : List Nat
  syncCount : Nat
  write_position : Nat
  total_bytes_written : Nat
  initial_capacity : Nat
  deriving DecidableEq, Repr

namespace OmBufferedWriter

/-- `OmBufferedWriter::new`: zero-filled buffer of the initial capacity,
positions at zero, over a fresh backend. -/
def new (initial_capacity : Nat) : OmBufferedWriter :=
  { buffer := List.replicate initial_capacity 0
    backendData := []
    syncCount := 0
    write_position := 0
    total_bytes_written := 0
    initial_capacity := initial_capacity }

/-- `increment_write_position`: advances both the buffer position and the
running total. -/
def increment_write_position (s : OmBufferedWriter) (bytes : Nat) : OmBufferedWriter :=
  { s with write_position := s.write_position + bytes
           total_bytes_written := s.total_bytes_written + bytes }

/-- `reset_write_position`. -/
def reset_write_position (s : OmBufferedWriter) : OmBufferedWriter :=
  { s with write_position := 0 }

/-- `remaining_capacity`: bytes left in the write buffer. -/
def remaining_capacity (s : OmBufferedWriter) : Nat :=
  s.buffer.length - s.write_position

/-- `write_to_file`: flush the buffer prefix `[0..write_position)` to the
backend, zero the flushed prefix, and reset the position. A no-op when the
position is zero. -/
def write_to_file (s : OmBufferedWriter) : OmBufferedWriter :=
  if s.write_position = 0 then s
  else
    { s with backendData := s.backendData ++ s.buffer.take s.write_position
             buffer := List.replicate s.write_position 0 ++ s.buffer.drop s.write_position
             write_position := 0 }

/-- The buffer-growing arm of `reallocate`: `Vec::resize` to the next
multiple of the initial capacity, filling with zeros. -/
def growBuffer (s : OmBufferedWriter) (minimum_capacity : Nat) : OmBufferedWriter :=
  { s with buffer := s.buffer ++
      List.replicate (divideRoundedUp minimum_capacity s.initial_capacity * s.initial_capacity
        - s.buffer.length) 0 }

/-- `reallocate`: ensure at least `minimum_capacity` bytes remain; flush
first, and grow the buffer to the next multiple of the initial capacity if
still short. -/
def reallocate (s : OmBufferedWriter) (minimum_capacity : Nat) : OmBufferedWriter :=
  if minimum_capacity ≤ s.remaining_capacity then s
  else if minimum_capacity ≤ s.write_to_file.buffer.length then s.write_to_file
  else growBuffer s.write_to_file minimum_capacity

/-- Write `data` into the buffer at the current write position (the effect
of filling `buffer_at_write_position()`), without moving the position. -/
def writeRaw (s : OmBufferedWriter) (data : List Nat) : OmBufferedWriter :=
  { s with buffer := listWriteAt s.buffer s.write_position data }

/-- `align_to_64_bytes`: zero-pad until `total_bytes_written` is a multiple
of 8 (early return when already aligned, since `8 - total % 8` is then 8). -/
def align_to_64_bytes (s : OmBufferedWriter) : OmBufferedWriter :=
  if 8 - s.total_bytes_written % 8 = 8 then s
  else
    (((s.reallocate (8 - s.total_bytes_written % 8)).writeRaw
        (List.replicate (8 - s.total_bytes_written % 8) 0)).increment_write_position
      (8 - s.total_bytes_written % 8))

/-- `backend.synchronize()`: the backend sync hook of the
`OmFileWriterBackend` trait (`src/backend/backends.rs`), modelled as a
counter so theorems can observe whether it was ever invoked. -/
def synchronize (s : OmBufferedWriter) : OmBufferedWriter :=
  { s with syncCount := s.syncCount + 1 }

/-- The common emit pattern of the writer facade (`src/io/writer.rs`):
`reallocate(size)`, write `data` at the current write position, then
`increment_write_position(size)`. -/
def emit (s : OmBufferedWriter) (data : List Nat) : OmBufferedWriter :=
  ((s.reallocate data.length).writeRaw data).increment_write_position data.length

end OmBufferedWriter

/-- The four `OmBufferedWriter` operations named by the spec's
`total_bytes_written` guarantee. -/
inductive BufOp where
  | inc : Nat → BufOp
  | align : BufOp
  | realloc : Nat → BufOp
  | flush : BufOp
  deriving DecidableEq, Repr

/-- Interpret one buffered-writer operation. -/
def applyBufOp (s : OmBufferedWriter) : BufOp → OmBufferedWriter
  | BufOp.inc b => s.increment_write_position b
  | BufOp.align => s.align_to_64_bytes
  | BufOp.realloc m => s.reallocate m
  | BufOp.flush => s.write_to_file

/-- Run a sequence of buffered-writer operations. -/
def runBufOps (ops : List BufOp) (s : OmBufferedWriter) : OmBufferedWriter :=
  ops.foldl applyBufOp s

/-- A sequence of operations is well formed from `s` when every raw
`increment_write_position` stays within the buffer, as the source demands
(the flushed slice `buffer[..write_position]` must be in bounds). -/
def wellFormedOps : List BufOp → OmBufferedWriter → Prop
  | [], _ => True
  | BufOp.inc b :: rest, s =>
      b ≤ s.remaining_capacity ∧ wellFormedOps rest (s.increment_write_position b)
  | op :: rest, s => wellFormedOps rest (applyBufOp s op)

instance : ∀ (ops : List BufOp) (s : OmBufferedWriter), Decidable (wellFormedOps ops s)
  | [], _ => by unfold wellFormedOps; infer_instance
  | BufOp.inc b :: rest, s => by
      unfold wellFormedOps
      have := instDecidableWellFormedOps rest (s.increment_write_position b)
      infer_instance
  | BufOp.align :: rest, s => by
      unfold wellFormedOps
      exact instDecidableWellFormedOps rest _
  | BufOp.realloc m :: rest, s => by
      unfold wellFormedOps
      exact instDecidableWellFormedOps rest _
  | BufOp.flush :: rest, s => by
      unfold wellFormedOps
      exact instDecidableWellFormedOps rest _

/-- The offset invariant: `total_bytes_written` equals the bytes already
handed to the backend plus the pending bytes in the buffer, and the pending
bytes all fit inside the buffer. -/
def offsetInv (s : OmBufferedWriter) : Prop :=
  s.total_bytes_written = s.backendData.length + s.write_position ∧
    s.write_position ≤ s.buffer.length

instance (s : OmBufferedWriter) : Decidable (offsetInv s) := by
  unfold offsetInv
  infer_instance

namespace OmBufferedWriter

theorem offsetInv_new (c : Nat) : offsetInv (new c) := by
  simp [offsetInv, new]

theorem offsetInv_increment (s : OmBufferedWriter) (b : Nat) (h : offsetInv s)
    (hb : b ≤ s.remaining_capacity) :
    offsetInv (s.increment_write_position b) := by
  obtain ⟨h1, h2⟩ := h
  unfold remaining_capacity at hb
  refine ⟨?_, ?_⟩ <;> simp only [increment_write_position] <;> omega

theorem write_to_file_total (s : OmBufferedWriter) :
    (s.write_to_file).total_bytes_written = s.total_bytes_written := by
  unfold write_to_file
  split <;> rfl

theorem write_to_file_buffer_length (s : OmBufferedWriter)
    (h : s.write_position ≤ s.buffer.length) :
    (s.write_to_file).buffer.length = s.buffer.length := by
  unfold write_to_file
  split
  · rfl
  · simp only [List.length_append, List.length_replicate, List.length_drop]
    omega

theorem offsetInv_write_to_file (s : OmBufferedWriter) (h : offsetInv s) :
    offsetInv s.write_to_file := by
  obtain ⟨h1, h2⟩ := h
  unfold offsetInv write_to_file
  split
  · exact ⟨h1, h2⟩
  · constructor
    · simp only [List.length_append, List.length_take]
      omega
    · simp

theorem reallocate_total (s : OmBufferedWriter) (m : Nat) :
    (s.reallocate m).total_bytes_written = s.total_bytes_written := by
  unfold reallocate growBuffer
  split
  · rfl
  · split
    · exact write_to_file_total s
    · simp only
      exact write_to_file_total s

theorem offsetInv_growBuffer (s : OmBufferedWriter) (m : Nat) (h : offsetInv s) :
    offsetInv (s.growBuffer m) := by
  obtain ⟨h1, h2⟩ := h
  unfold offsetInv growBuffer
  constructor
  · exact h1
  · simp only [List.length_append]
    omega

theorem offsetInv_reallocate (s : OmBufferedWriter) (m : Nat) (h : offsetInv s) :
    offsetInv (s.reallocate m) := by
  unfold reallocate
  split
  · exact h
  · split
    · exact offsetInv_write_to_file s h
    · exact offsetInv_growBuffer _ m (offsetInv_write_to_file s h)

theorem le_divideRoundedUp_mul (m ic : Nat) (hc : 0 < ic) :
    m ≤ divideRoundedUp m ic * ic := by
  unfold divideRoundedUp
  split
  · rename_i hmod
    exact le_of_eq (Nat.div_mul_cancel (Nat.dvd_of_mod_eq_zero hmod)).symm
  · have h1 := Nat.div_add_mod m ic
    have h2 : m % ic < ic := Nat.mod_lt m hc
    have h3 : (m / ic + 1) * ic = ic * (m / ic) + ic := by ring
    omega

theorem reallocate_remaining (s : OmBufferedWriter) (m : Nat) (h : offsetInv s)
    (hc : 0 < s.initial_capacity) :
    m ≤ (s.reallocate m).remaining_capacity := by
  obtain ⟨h1, h2⟩ := h
  unfold reallocate
  split
  · assumption
  · split
    · have hwp : (s.write_to_file).write_position = 0 := by
        unfold write_to_file
        split
        · assumption
        · rfl
      unfold remaining_capacity
      omega
    · rename_i hrem hlen
      have hwp : (s.write_to_file).write_position = 0 := by
        unfold write_to_file
        split
        · unfold remaining_capacity at hrem
          omega
        · rfl
      have hic : (s.write_to_file).initial_capacity = s.initial_capacity := by
        unfold write_to_file
        split <;> rfl
      have hge := le_divideRoundedUp_mul m s.initial_capacity hc
      unfold remaining_capacity growBuffer
      simp only [List.length_append, List.length_replicate, hwp, hic]
      omega

theorem reallocate_ic (s : OmBufferedWriter) (m : Nat) :
    (s.reallocate m).initial_capacity = s.initial_capacity := by
  unfold reallocate growBuffer write_to_file
  split
  · rfl
  · split <;> (first | rfl | (split <;> rfl))

theorem offsetInv_writeRaw_increment (s : OmBufferedWriter) (d : List Nat)
    (h : offsetInv s) (_hd : d.length ≤ s.remaining_capacity) :
    offsetInv ((s.writeRaw d).increment_write_position d.length) := by
  obtain ⟨h1, h2⟩ := h
  unfold offsetInv writeRaw increment_write_position listWriteAt
  constructor
  · simp only
    omega
  · simp only [List.length_append, List.length_take, List.length_drop]
    omega

theorem offsetInv_align (s : OmBufferedWriter) (h : offsetInv s)
    (hc : 0 < s.initial_capacity) :
    offsetInv s.align_to_64_bytes := by
  unfold align_to_64_bytes
  split
  · exact h
  · have h1 := offsetInv_reallocate s (8 - s.total_bytes_written % 8) h
    have h2 := reallocate_remaining s (8 - s.total_bytes_written % 8) h hc
    have h3 := offsetInv_writeRaw_increment (s.reallocate (8 - s.total_bytes_written % 8))
      (List.replicate (8 - s.total_bytes_written % 8) 0) h1 (by simpa using h2)
    simpa using h3

theorem offsetInv_emit (s : OmBufferedWriter) (d : List Nat) (h : offsetInv s)
    (hc : 0 < s.initial_capacity) :
    offsetInv (s.emit d) := by
  unfold emit
  exact offsetInv_writeRaw_increment _ d (offsetInv_reallocate s d.length h)
    (reallocate_remaining s d.length h hc)

theorem ic_increment (s : OmBufferedWriter) (b : Nat) :
    (s.increment_write_position b).initial_capacity = s.initial_capacity := rfl

theorem ic_write_to_file (s : OmBufferedWriter) :
    (s.write_to_file).initial_capacity = s.initial_capacity := by
  unfold write_to_file
  split <;> rfl

theorem ic_align (s : OmBufferedWriter) :
    (s.align_to_64_bytes).initial_capacity = s.initial_capacity := by
  unfold align_to_64_bytes
  split
  · rfl
  · simp only [increment_write_position, writeRaw]
    exact reallocate_ic s _

theorem ic_emit (s : OmBufferedWriter) (d : List Nat) :
    (s.emit d).initial_capacity = s.initial_capacity := by
  unfold emit
  simp only [increment_write_position, writeRaw]
  exact reallocate_ic s _

theorem offsetInv_runBufOps (ops : List BufOp) (s : OmBufferedWriter)
    (h : offsetInv s) (hc : 0 < s.initial_capacity) (hwf : wellFormedOps ops s) :
    offsetInv (runBufOps ops s) := by
  induction ops generalizing s with
  | nil => exact h
  | cons op rest ih =>
      simp only [runBufOps, List.foldl_cons] at *
      cases op with
      | inc b =>
          obtain ⟨hb, hwf'⟩ := hwf
          exact ih _ (offsetInv_increment s b h hb)
            (by simp only [applyBufOp]; rwa [ic_increment]) hwf'
      | align =>
          exact ih _ (offsetInv_align s h hc)
            (by simp only [applyBufOp]; rwa [ic_align]) hwf
      | realloc m =>
          exact ih _ (offsetInv_reallocate s m h)
            (by simp only [applyBufOp]; rwa [reallocate_ic]) hwf
      | flush =>
          exact ih _ (offsetInv_write_to_file s h)
            (by simp only [applyBufOp]; rwa [ic_write_to_file]) hwf

end OmBufferedWriter

/-- C6: at every point in any well-formed sequence of `OmBufferedWriter`
operations from a fresh writer, `total_bytes_written` equals the bytes
already handed to the backend plus `write_position` (so it is the absolute
file offset of the next byte), and neither flushing nor reallocating ever
changes it. -/
theorem c6_total_bytes_written_invariant (ops : List BufOp) (c : Nat)
    (hc : 0 < c) (hwf : wellFormedOps ops (OmBufferedWriter.new c)) :
    (runBufOps ops (OmBufferedWriter.new c)).total_bytes_written =
      (runBufOps ops (OmBufferedWriter.new c)).backendData.length +
        (runBufOps ops (OmBufferedWriter.new c)).write_position ∧
    (∀ (s : OmBufferedWriter) (m : Nat),
        (s.write_to_file).total_bytes_written = s.total_bytes_written ∧
        (s.reallocate m).total_bytes_written = s.total_bytes_written) := by
  constructor
  · exact (OmBufferedWriter.offsetInv_runBufOps ops _ (OmBufferedWriter.offsetInv_new c)
      hc hwf).1
  · intro s m
    exact ⟨OmBufferedWriter.write_to_file_total s, OmBufferedWriter.reallocate_total s m⟩

/-- Witness for C6 at a concrete operation sequence and capacity. -/
theorem c6_total_bytes_written_invariant_witness :
    (runBufOps [BufOp.inc 3, BufOp.align, BufOp.realloc 20, BufOp.flush]
        (OmBufferedWriter.new 8)).total_bytes_written =
      (runBufOps [BufOp.inc 3, BufOp.align, BufOp.realloc 20, BufOp.flush]
          (OmBufferedWriter.new 8)).backendData.length +
        (runBufOps [BufOp.inc 3, BufOp.align, BufOp.realloc 20, BufOp.flush]
            (OmBufferedWriter.new 8)).write_position :=
  (c6_total_bytes_written_invariant
    [BufOp.inc 3, BufOp.align, BufOp.realloc 20, BufOp.flush] 8
    (by decide) (by decide)).1

/-- `OmOffsetSize` from `src/io/writer.rs`: a record's absolute file offset
and byte size. -/
structure OmOffsetSize where
  offset : Nat
  size : Nat
  deriving DecidableEq, Repr

namespace OmFileWriter

/-- `OmFileWriter::write_header_if_required`: emit the header bytes (the
output of the C `om_header_write`, passed in as `headerBytes`) exactly when
nothing has been written yet. -/
def write_header_if_required (headerBytes : List Nat) (s : OmBufferedWriter) :
    OmBufferedWriter :=
  if 0 < s.total_bytes_written then s else s.emit headerBytes

/-- `OmFileWriter::write_scalar`: header if required, align to 8 bytes,
record the aligned offset, then emit the scalar record bytes (the output of
the C `om_variable_write_scalar`, passed in as `record`). -/
def write_scalar (headerBytes : List Nat) (s : OmBufferedWriter) (record : List Nat) :
    OmOffsetSize × OmBufferedWriter :=
  let s1 := write_header_if_required headerBytes s
  let s2 := s1.align_to_64_bytes
  (⟨s2.total_bytes_written, record.length⟩, s2.emit record)

/-- `OmFileWriter::write_array`: header if required, align to 8 bytes,
record the aligned offset, then emit the array record bytes (the output of
the C `om_variable_write_numeric_array`, passed in as `record`). -/
def write_array (headerBytes : List Nat) (s : OmBufferedWriter) (record : List Nat) :
    OmOffsetSize × OmBufferedWriter :=
  let s1 := write_header_if_required headerBytes s
  let s2 := s1.align_to_64_bytes
  (⟨s2.total_bytes_written, record.length⟩, s2.emit record)

/-- `OmFileWriter::write_trailer`: header if required, align, emit the
trailer bytes (the output of the C `om_trailer_write`, passed in as
`trailerBytes`), then flush the buffered writer to the backend. No call to
`backend.synchronize` appears in the source. -/
def write_trailer (headerBytes : List Nat) (s : OmBufferedWriter)
    (trailerBytes : List Nat) : OmBufferedWriter :=
  let s1 := write_header_if_required headerBytes s
  let s2 := s1.align_to_64_bytes
  (s2.emit trailerBytes).write_to_file

end OmFileWriter

namespace OmBufferedWriter

theorem align_total_mod (s : OmBufferedWriter) :
    (s.align_to_64_bytes).total_bytes_written % 8 = 0 := by
  unfold align_to_64_bytes
  split
  · rename_i h
    have : s.total_bytes_written % 8 < 8 := Nat.mod_lt _ (by omega)
    omega
  · rename_i h
    simp only [increment_write_position, writeRaw, reallocate_total]
    have : s.total_bytes_written % 8 < 8 := Nat.mod_lt _ (by omega)
    omega

theorem emit_total (s : OmBufferedWriter) (d : List Nat) :
    (s.emit d).total_bytes_written = s.total_bytes_written + d.length := by
  unfold emit
  simp only [increment_write_position, writeRaw, reallocate_total]

theorem sync_write_to_file (s : OmBufferedWriter) :
    (s.write_to_file).syncCount = s.syncCount := by
  unfold write_to_file
  split <;> rfl

theorem sync_reallocate (s : OmBufferedWriter) (m : Nat) :
    (s.reallocate m).syncCount = s.syncCount := by
  unfold reallocate growBuffer
  split
  · rfl
  · split
    · exact sync_write_to_file s
    · simp only
      exact sync_write_to_file s

theorem sync_emit (s : OmBufferedWriter) (d : List Nat) :
    (s.emit d).syncCount = s.syncCount := by
  unfold emit
  simp only [increment_write_position, writeRaw]
  exact sync_reallocate s _

theorem sync_align (s : OmBufferedWriter) :
    (s.align_to_64_bytes).syncCount = s.syncCount := by
  unfold align_to_64_bytes
  split
  · rfl
  · simp only [increment_write_position, writeRaw]
    exact sync_reallocate s _

end OmBufferedWriter

/-- C3: every variable record (scalar or array) begins at an 8-byte-aligned
file offset: the offset captured by `write_scalar` and `write_array` right
after `align_to_64_bytes` is always a multiple of 8, for any writer state
and any record and header bytes. -/
theorem c3_records_are_8_byte_aligned (headerBytes record : List Nat)
    (s : OmBufferedWriter) :
    (OmFileWriter.write_scalar headerBytes s record).1.offset % 8 = 0 ∧
    (OmFileWriter.write_array headerBytes s record).1.offset % 8 = 0 := by
  constructor
  · exact OmBufferedWriter.align_total_mod _
  · exact OmBufferedWriter.align_total_mod _

namespace OmBufferedWriter

theorem wp_write_to_file (s : OmBufferedWriter) :
    (s.write_to_file).write_position = 0 := by
  unfold write_to_file
  split
  · assumption
  · rfl

theorem ic_new (c : Nat) : (new c).initial_capacity = c := rfl

/-- The bytes of the file as already materialized plus still pending: the
backend contents followed by the unflushed prefix of the buffer. -/
def flushedStream (s : OmBufferedWriter) : List Nat :=
  s.backendData ++ s.buffer.take s.write_position

theorem backendData_write_to_file (s : OmBufferedWriter) :
    (s.write_to_file).backendData = s.flushedStream := by
  unfold write_to_file flushedStream
  split
  · rename_i h
    simp [h]
  · rfl

theorem flushedStream_write_to_file (s : OmBufferedWriter) :
    (s.write_to_file).flushedStream = s.flushedStream := by
  unfold flushedStream write_to_file
  split
  · rfl
  · simp

theorem flushedStream_reallocate (s : OmBufferedWriter) (m : Nat) :
    (s.reallocate m).flushedStream = s.flushedStream := by
  unfold reallocate
  split
  · rfl
  · split
    · exact flushedStream_write_to_file s
    · have hwp := wp_write_to_file s
      have h1 := flushedStream_write_to_file s
      unfold flushedStream growBuffer at *
      simp [hwp] at h1 ⊢
      simpa using h1

/-- Master emit lemma: after `reallocate m` followed by writing `d` (with
`d.length ≤ m`, as the source guarantees for every emitted run) and
advancing the position, the flushed-plus-pending byte stream grows by
exactly `d`, and the invariant is preserved. -/
theorem take_writeAt_eq (A d B : List Nat) :
    (A ++ (d ++ B)).take (A.length + d.length) = A ++ d := by
  rw [List.take_append]
  congr 1
  rw [List.take_append_of_le_length (le_refl d.length)]
  simp

theorem flushedStream_reallocWrite (s : OmBufferedWriter) (m : Nat) (d : List Nat)
    (h : offsetInv s) :
    (((s.reallocate m).writeRaw d).increment_write_position d.length).flushedStream =
      s.flushedStream ++ d := by
  have hs1 := flushedStream_reallocate s m
  have hinv1 := offsetInv_reallocate s m h
  obtain ⟨h1, h2⟩ := hinv1
  unfold flushedStream writeRaw increment_write_position listWriteAt at *
  simp only
  rw [← hs1]
  have hlen : ((s.reallocate m).buffer.take (s.reallocate m).write_position).length =
      (s.reallocate m).write_position := by
    simp only [List.length_take]
    omega
  generalize hA : (s.reallocate m).buffer.take (s.reallocate m).write_position = A at *
  generalize hB : (s.reallocate m).buffer.drop ((s.reallocate m).write_position + d.length) = B
  rw [← hlen]
  rw [List.append_assoc]
  rw [take_writeAt_eq A d B]
  simp

theorem total_reallocWrite (s : OmBufferedWriter) (m : Nat) (d : List Nat) :
    (((s.reallocate m).writeRaw d).increment_write_position d.length).total_bytes_written =
      s.total_bytes_written + d.length := by
  simp only [increment_write_position, writeRaw, reallocate_total]

theorem ic_reallocWrite (s : OmBufferedWriter) (m : Nat) (d : List Nat) :
    (((s.reallocate m).writeRaw d).increment_write_position d.length).initial_capacity =
      s.initial_capacity := by
  simp only [increment_write_position, writeRaw]
  exact reallocate_ic s m

theorem offsetInv_reallocWrite (s : OmBufferedWriter) (m : Nat) (d : List Nat)
    (h : offsetInv s) (hc : 0 < s.initial_capacity) (hdm : d.length ≤ m) :
    offsetInv (((s.reallocate m).writeRaw d).increment_write_position d.length) := by
  have hinv1 := offsetInv_reallocate s m h
  have hrem := reallocate_remaining s m h hc
  exact offsetInv_writeRaw_increment _ d hinv1 (by omega)

theorem sync_reallocWrite (s : OmBufferedWriter) (m : Nat) (d : List Nat) :
    (((s.reallocate m).writeRaw d).increment_write_position d.length).syncCount =
      s.syncCount := by
  simp only [increment_write_position, writeRaw]
  exact sync_reallocate s m

end OmBufferedWriter

/-- C1 (amended): a successful `write_trailer` flushes the buffered writer
completely — afterwards the write position is zero and the backend holds
exactly `total_bytes_written` bytes — but it never invokes the backend's
`synchronize`; syncing is left to the caller. -/
theorem c1_write_trailer_flushes_without_sync (headerBytes trailerBytes : List Nat)
    (s : OmBufferedWriter) (h : offsetInv s) (hc : 0 < s.initial_capacity) :
    (OmFileWriter.write_trailer headerBytes s trailerBytes).write_position = 0 ∧
    (OmFileWriter.write_trailer headerBytes s trailerBytes).backendData.length =
      (OmFileWriter.write_trailer headerBytes s trailerBytes).total_bytes_written ∧
    (OmFileWriter.write_trailer headerBytes s trailerBytes).syncCount = s.syncCount := by
  have hdef : OmFileWriter.write_trailer headerBytes s trailerBytes =
      (((OmFileWriter.write_header_if_required headerBytes s).align_to_64_bytes).emit
        trailerBytes).write_to_file := rfl
  set s1 := OmFileWriter.write_header_if_required headerBytes s with hs1
  have hinv1 : offsetInv s1 := by
    rw [hs1]
    unfold OmFileWriter.write_header_if_required
    split
    · exact h
    · exact OmBufferedWriter.offsetInv_emit s headerBytes h hc
  have hic1 : 0 < s1.initial_capacity := by
    rw [hs1]
    unfold OmFileWriter.write_header_if_required
    split
    · exact hc
    · rwa [OmBufferedWriter.ic_emit]
  have hsync1 : s1.syncCount = s.syncCount := by
    rw [hs1]
    unfold OmFileWriter.write_header_if_required
    split
    · rfl
    · exact OmBufferedWriter.sync_emit s headerBytes
  have hinv2 : offsetInv s1.align_to_64_bytes :=
    OmBufferedWriter.offsetInv_align s1 hinv1 hic1
  have hic2 : 0 < (s1.align_to_64_bytes).initial_capacity := by
    rwa [OmBufferedWriter.ic_align]
  have hinv3 : offsetInv ((s1.align_to_64_bytes).emit trailerBytes) :=
    OmBufferedWriter.offsetInv_emit _ trailerBytes hinv2 hic2
  have hinv4 : offsetInv (((s1.align_to_64_bytes).emit trailerBytes).write_to_file) :=
    OmBufferedWriter.offsetInv_write_to_file _ hinv3
  rw [hdef]
  refine ⟨OmBufferedWriter.wp_write_to_file _, ?_, ?_⟩
  · have hwp := OmBufferedWriter.wp_write_to_file ((s1.align_to_64_bytes).emit trailerBytes)
    obtain ⟨ha, _⟩ := hinv4
    omega
  · rw [OmBufferedWriter.sync_write_to_file, OmBufferedWriter.sync_emit,
      OmBufferedWriter.sync_align, hsync1]

/-- Witness for the amended C1 at a concrete writer state. -/
theorem c1_write_trailer_flushes_without_sync_witness :
    (OmFileWriter.write_trailer [79, 77, 3, 0, 0, 0, 0, 0] (OmBufferedWriter.new 8)
        (List.replicate 24 0)).write_position = 0 ∧
    (OmFileWriter.write_trailer [79, 77, 3, 0, 0, 0, 0, 0] (OmBufferedWriter.new 8)
        (List.replicate 24 0)).backendData.length =
      (OmFileWriter.write_trailer [79, 77, 3, 0, 0, 0, 0, 0] (OmBufferedWriter.new 8)
          (List.replicate 24 0)).total_bytes_written ∧
    (OmFileWriter.write_trailer [79, 77, 3, 0, 0, 0, 0, 0] (OmBufferedWriter.new 8)
        (List.replicate 24 0)).syncCount = (OmBufferedWriter.new 8).syncCount :=
  c1_write_trailer_flushes_without_sync [79, 77, 3, 0, 0, 0, 0, 0] (List.replicate 24 0)
    (OmBufferedWriter.new 8) (by decide) (by decide)

/-- Counterexample to C1 as stated: at a concrete writer state,
`write_trailer` does flush the pending bytes but the backend records zero
`synchronize` invocations, so "flushed AND synced" is false. -/
theorem c1_counterexample :
    ¬ ((OmFileWriter.write_trailer [79, 77, 3, 0, 0, 0, 0, 0] (OmBufferedWriter.new 8)
          (List.replicate 24 0)).write_position = 0 ∧
       0 < (OmFileWriter.write_trailer [79, 77, 3, 0, 0, 0, 0, 0] (OmBufferedWriter.new 8)
          (List.replicate 24 0)).syncCount) := by
  decide

/-- A state of the buffered writer whose bookkeeping is consistent and whose
initial capacity is positive (a zero capacity makes the source's
`divide_rounded_up` divide by zero). -/
def goodState (s : OmBufferedWriter) : Prop :=
  offsetInv s ∧ 0 < s.initial_capacity

namespace OmBufferedWriter

theorem goodState_new (c : Nat) (hc : 0 < c) : goodState (new c) :=
  ⟨offsetInv_new c, hc⟩

theorem goodState_emit (s : OmBufferedWriter) (d : List Nat) (h : goodState s) :
    goodState (s.emit d) :=
  ⟨offsetInv_emit s d h.1 h.2, by rw [ic_emit]; exact h.2⟩

theorem goodState_align (s : OmBufferedWriter) (h : goodState s) :
    goodState s.align_to_64_bytes :=
  ⟨offsetInv_align s h.1 h.2, by rw [ic_align]; exact h.2⟩

theorem goodState_write_to_file (s : OmBufferedWriter) (h : goodState s) :
    goodState s.write_to_file :=
  ⟨offsetInv_write_to_file s h.1, by rw [ic_write_to_file]; exact h.2⟩

theorem goodState_reallocate (s : OmBufferedWriter) (m : Nat) (h : goodState s) :
    goodState (s.reallocate m) :=
  ⟨offsetInv_reallocate s m h.1, by rw [reallocate_ic]; exact h.2⟩

theorem flushedStream_emit (s : OmBufferedWriter) (d : List Nat) (h : offsetInv s) :
    (s.emit d).flushedStream = s.flushedStream ++ d :=
  flushedStream_reallocWrite s d.length d h

theorem flushedStream_align (s : OmBufferedWriter) (h : offsetInv s) :
    (s.align_to_64_bytes).flushedStream = s.flushedStream ++
      List.replicate (if 8 - s.total_bytes_written % 8 = 8 then 0
        else 8 - s.total_bytes_written % 8) 0 := by
  unfold align_to_64_bytes
  split
  · simp
  · have hx := flushedStream_reallocWrite s (8 - s.total_bytes_written % 8)
      (List.replicate (8 - s.total_bytes_written % 8) 0) h
    rw [List.length_replicate] at hx
    rw [hx]

theorem align_total_add (s : OmBufferedWriter) :
    (s.align_to_64_bytes).total_bytes_written = s.total_bytes_written +
      (if 8 - s.total_bytes_written % 8 = 8 then 0 else 8 - s.total_bytes_written % 8) := by
  unfold align_to_64_bytes
  split
  · simp
  · have hx := total_reallocWrite s (8 - s.total_bytes_written % 8)
      (List.replicate (8 - s.total_bytes_written % 8) 0)
    rw [List.length_replicate] at hx
    rw [hx]

end OmBufferedWriter

namespace OmFileWriter

theorem goodState_header (hb : List Nat) (s : OmBufferedWriter) (h : goodState s) :
    goodState (write_header_if_required hb s) := by
  unfold write_header_if_required
  split
  · exact h
  · exact OmBufferedWriter.goodState_emit s hb h

theorem flushedStream_header (hb : List Nat) (s : OmBufferedWriter) (h : offsetInv s) :
    (write_header_if_required hb s).flushedStream = s.flushedStream ++
      (if 0 < s.total_bytes_written then [] else hb) := by
  unfold write_header_if_required
  split
  · simp
  · rw [OmBufferedWriter.flushedStream_emit s hb h]

theorem header_total (hb : List Nat) (s : OmBufferedWriter) :
    (write_header_if_required hb s).total_bytes_written = s.total_bytes_written +
      (if 0 < s.total_bytes_written then 0 else hb.length) := by
  unfold write_header_if_required
  split
  · simp
  · rw [OmBufferedWriter.emit_total]

end OmFileWriter

/-- A logical writer operation with the byte runs it emits. The byte lists
are the outputs of the deterministic C encoders (`om_variable_write_scalar`,
`om_variable_write_numeric_array`, `om_encoder_compress_chunk`,
`om_encoder_compress_lut`, `om_trailer_write`), which are fixed functions of
the operation's inputs, so two runs on identical inputs interpret identical
operation lists. -/
inductive WriterOp where
  | scalar : List Nat → WriterOp
  | arrayRecord : List Nat → WriterOp
  | chunkData : Nat → List (List Nat) → WriterOp
  | lutData : Nat → List Nat → WriterOp
  | trailer : List Nat → WriterOp
  deriving DecidableEq, Repr

/-- One compressed chunk as emitted by `write_data_flat`: reallocate the
compressed-chunk bound, write the compressed bytes, advance. -/
def applyChunk (ccbs : Nat) (s : OmBufferedWriter) (bytes : List Nat) : OmBufferedWriter :=
  ((s.reallocate ccbs).writeRaw bytes).increment_write_position bytes.length

/-- Interpret one writer operation on the buffered writer (the byte-stream
effect of `write_scalar`, `write_array`, `write_data_flat`'s chunk loop,
`write_lut` and `write_trailer`). -/
def applyWriterOp (hb : List Nat) (s : OmBufferedWriter) : WriterOp → OmBufferedWriter
  | WriterOp.scalar r => (OmFileWriter.write_scalar hb s r).2
  | WriterOp.arrayRecord r => (OmFileWriter.write_array hb s r).2
  | WriterOp.chunkData ccbs cs => cs.foldl (applyChunk ccbs) (s.reallocate (ccbs * 4))
  | WriterOp.lutData bufSize b =>
      ((s.reallocate bufSize).writeRaw b).increment_write_position b.length
  | WriterOp.trailer tb => OmFileWriter.write_trailer hb s tb

/-- Run a sequence of writer operations. -/
def runWriterOps (hb : List Nat) (ops : List WriterOp) (s : OmBufferedWriter) :
    OmBufferedWriter :=
  ops.foldl (applyWriterOp hb) s

/-- Well-formedness of one writer operation: emitted byte runs fit in the
buffer space reserved for them, as the C codec size bounds guarantee
(a compressed chunk never exceeds `compressed_chunk_buffer_size`, the
compressed LUT never exceeds `om_encoder_lut_buffer_size`). -/
def wfWriterOp : WriterOp → Prop
  | WriterOp.chunkData ccbs cs => ∀ b ∈ cs, b.length ≤ ccbs
  | WriterOp.lutData bufSize b => b.length ≤ bufSize
  | _ => True

instance : DecidablePred wfWriterOp := by
  intro op
  cases op <;> (unfold wfWriterOp; infer_instance)

/-- The bytes of the finished file: run the operations from a fresh writer
of the given initial capacity, flush, and read the backend. -/
def fileBytes (hb : List Nat) (ops : List WriterOp) (c : Nat) : List Nat :=
  ((runWriterOps hb ops (OmBufferedWriter.new c)).write_to_file).backendData

/-- Two writer states that will produce the same remaining bytes: equal
flushed-plus-pending streams, equal totals, and both well formed. -/
def simState (s t : OmBufferedWriter) : Prop :=
  s.flushedStream = t.flushedStream ∧
    s.total_bytes_written = t.total_bytes_written ∧ goodState s ∧ goodState t

theorem simState_emit (s t : OmBufferedWriter) (d : List Nat) (h : simState s t) :
    simState (s.emit d) (t.emit d) := by
  obtain ⟨h1, h2, h3, h4⟩ := h
  refine ⟨?_, ?_, OmBufferedWriter.goodState_emit s d h3, OmBufferedWriter.goodState_emit t d h4⟩
  · rw [OmBufferedWriter.flushedStream_emit s d h3.1, OmBufferedWriter.flushedStream_emit t d h4.1,
      h1]
  · rw [OmBufferedWriter.emit_total, OmBufferedWriter.emit_total, h2]

theorem simState_align (s t : OmBufferedWriter) (h : simState s t) :
    simState s.align_to_64_bytes t.align_to_64_bytes := by
  obtain ⟨h1, h2, h3, h4⟩ := h
  refine ⟨?_, ?_, OmBufferedWriter.goodState_align s h3, OmBufferedWriter.goodState_align t h4⟩
  · rw [OmBufferedWriter.flushedStream_align s h3.1, OmBufferedWriter.flushedStream_align t h4.1,
      h1, h2]
  · rw [OmBufferedWriter.align_total_add, OmBufferedWriter.align_total_add, h2]

theorem simState_header (hb : List Nat) (s t : OmBufferedWriter) (h : simState s t) :
    simState (OmFileWriter.write_header_if_required hb s)
      (OmFileWriter.write_header_if_required hb t) := by
  obtain ⟨h1, h2, h3, h4⟩ := h
  refine ⟨?_, ?_, OmFileWriter.goodState_header hb s h3, OmFileWriter.goodState_header hb t h4⟩
  · rw [OmFileWriter.flushedStream_header hb s h3.1, OmFileWriter.flushedStream_header hb t h4.1,
      h1, h2]
  · rw [OmFileWriter.header_total, OmFileWriter.header_total, h2]

theorem simState_flush (s t : OmBufferedWriter) (h : simState s t) :
    simState s.write_to_file t.write_to_file := by
  obtain ⟨h1, h2, h3, h4⟩ := h
  exact ⟨by rw [OmBufferedWriter.flushedStream_write_to_file,
      OmBufferedWriter.flushedStream_write_to_file, h1],
    by rw [OmBufferedWriter.write_to_file_total, OmBufferedWriter.write_to_file_total, h2],
    OmBufferedWriter.goodState_write_to_file s h3, OmBufferedWriter.goodState_write_to_file t h4⟩

theorem simState_reallocate (s t : OmBufferedWriter) (m : Nat) (h : simState s t) :
    simState (s.reallocate m) (t.reallocate m) := by
  obtain ⟨h1, h2, h3, h4⟩ := h
  exact ⟨by rw [OmBufferedWriter.flushedStream_reallocate,
      OmBufferedWriter.flushedStream_reallocate, h1],
    by rw [OmBufferedWriter.reallocate_total, OmBufferedWriter.reallocate_total, h2],
    OmBufferedWriter.goodState_reallocate s m h3, OmBufferedWriter.goodState_reallocate t m h4⟩

theorem simState_applyChunk (ccbs : Nat) (b : List Nat) (hb : b.length ≤ ccbs)
    (s t : OmBufferedWriter) (h : simState s t) :
    simState (applyChunk ccbs s b) (applyChunk ccbs t b) := by
  obtain ⟨h1, h2, h3, h4⟩ := h
  unfold applyChunk
  refine ⟨?_, ?_, ?_, ?_⟩
  · rw [OmBufferedWriter.flushedStream_reallocWrite s ccbs b h3.1,
      OmBufferedWriter.flushedStream_reallocWrite t ccbs b h4.1, h1]
  · rw [OmBufferedWriter.total_reallocWrite, OmBufferedWriter.total_reallocWrite, h2]
  · exact ⟨OmBufferedWriter.offsetInv_reallocWrite s ccbs b h3.1 h3.2 hb,
      by rw [OmBufferedWriter.ic_reallocWrite]; exact h3.2⟩
  · exact ⟨OmBufferedWriter.offsetInv_reallocWrite t ccbs b h4.1 h4.2 hb,
      by rw [OmBufferedWriter.ic_reallocWrite]; exact h4.2⟩

theorem simState_chunkFold (ccbs : Nat) (cs : List (List Nat))
    (hwf : ∀ b ∈ cs, b.length ≤ ccbs) (s t : OmBufferedWriter) (h : simState s t) :
    simState (cs.foldl (applyChunk ccbs) s) (cs.foldl (applyChunk ccbs) t) := by
  induction cs generalizing s t with
  | nil => exact h
  | cons b rest ih =>
      simp only [List.foldl_cons]
      exact ih (fun x hx => hwf x (List.mem_cons_of_mem b hx)) _ _
        (simState_applyChunk ccbs b (hwf b (List.mem_cons_self b rest)) s t h)

theorem simState_applyWriterOp (hb : List Nat) (op : WriterOp) (hop : wfWriterOp op)
    (s t : OmBufferedWriter) (h : simState s t) :
    simState (applyWriterOp hb s op) (applyWriterOp hb t op) := by
  cases op with
  | scalar r =>
      exact simState_emit _ _ r (simState_align _ _ (simState_header hb s t h))
  | arrayRecord r =>
      exact simState_emit _ _ r (simState_align _ _ (simState_header hb s t h))
  | chunkData ccbs cs =>
      exact simState_chunkFold ccbs cs hop _ _ (simState_reallocate s t (ccbs * 4) h)
  | lutData bufSize b =>
      unfold wfWriterOp at hop
      simp only [applyWriterOp]
      refine ⟨?_, ?_, ?_, ?_⟩
      · rw [OmBufferedWriter.flushedStream_reallocWrite s bufSize b (h.2.2.1).1,
          OmBufferedWriter.flushedStream_reallocWrite t bufSize b (h.2.2.2).1, h.1]
      · rw [OmBufferedWriter.total_reallocWrite, OmBufferedWriter.total_reallocWrite, h.2.1]
      · exact ⟨OmBufferedWriter.offsetInv_reallocWrite s bufSize b (h.2.2.1).1 (h.2.2.1).2 hop,
          by rw [OmBufferedWriter.ic_reallocWrite]; exact (h.2.2.1).2⟩
      · exact ⟨OmBufferedWriter.offsetInv_reallocWrite t bufSize b (h.2.2.2).1 (h.2.2.2).2 hop,
          by rw [OmBufferedWriter.ic_reallocWrite]; exact (h.2.2.2).2⟩
  | trailer tb =>
      exact simState_flush _ _
        (simState_emit _ _ tb (simState_align _ _ (simState_header hb s t h)))

theorem simState_runWriterOps (hb : List Nat) (ops : List WriterOp)
    (hwf : ∀ op ∈ ops, wfWriterOp op) (s t : OmBufferedWriter) (h : simState s t) :
    simState (runWriterOps hb ops s) (runWriterOps hb ops t) := by
  induction ops generalizing s t with
  | nil => exact h
  | cons op rest ih =>
      simp only [runWriterOps, List.foldl_cons] at *
      exact ih (fun x hx => hwf x (List.mem_cons_of_mem op hx)) _ _
        (simState_applyWriterOp hb op (hwf op (List.mem_cons_self op rest)) s t h)

/-- C7: the produced file is a function of the writer operations alone —
two runs over the same operation sequence (identical values, dimensions,
chunks, compression, scale/offset, names, children and order, hence
identical encoded byte runs) produce byte-identical files, regardless of
the buffered writers' initial capacities. -/
theorem c7_idempotent_layout (hb : List Nat) (ops : List WriterOp) (c1 c2 : Nat)
    (h1 : 0 < c1) (h2 : 0 < c2) (hwf : ∀ op ∈ ops, wfWriterOp op) :
    fileBytes hb ops c1 = fileBytes hb ops c2 := by
  have hinit : simState (OmBufferedWriter.new c1) (OmBufferedWriter.new c2) := by
    refine ⟨?_, rfl, OmBufferedWriter.goodState_new c1 h1, OmBufferedWriter.goodState_new c2 h2⟩
    unfold OmBufferedWriter.flushedStream OmBufferedWriter.new
    simp
  have hrun := simState_runWriterOps hb ops hwf _ _ hinit
  unfold fileBytes
  rw [OmBufferedWriter.backendData_write_to_file, OmBufferedWriter.backendData_write_to_file]
  exact hrun.1

/-- Witness for C7 at a concrete operation list and two capacities. -/
theorem c7_idempotent_layout_witness :
    fileBytes [79, 77, 3, 0] [WriterOp.scalar [1, 2, 3], WriterOp.chunkData 4 [[9, 9], [7]],
        WriterOp.lutData 3 [5, 6], WriterOp.trailer [8, 8, 8]] 8 =
      fileBytes [79, 77, 3, 0] [WriterOp.scalar [1, 2, 3], WriterOp.chunkData 4 [[9, 9], [7]],
        WriterOp.lutData 3 [5, 6], WriterOp.trailer [8, 8, 8]] 32 :=
  c7_idempotent_layout [79, 77, 3, 0]
    [WriterOp.scalar [1, 2, 3], WriterOp.chunkData 4 [[9, 9], [7]],
      WriterOp.lutData 3 [5, 6], WriterOp.trailer [8, 8, 8]] 8 32
    (by decide) (by decide) (by decide)

/-- Modelled from the spec: `om_encoder_count_chunks` lives in the C
`om-file-format` library, not under src/; per the spec's data-model
invariant, the chunk count is the product over dimensions of
`ceil(dimensions[i] / chunks[i])`. -/
def countChunks (dims chunkDims : List Nat) : Nat :=
  ((dims.zip chunkDims).map (fun p => (p.1 + p.2 - 1) / p.2)).prod

/-- Modelled from the spec: `om_encoder_count_chunks_in_array` lives in the
C library, not under src/; it counts the chunks covered by a write of
`array_count` elements per dimension, the product of
`ceil(array_count[i] / chunks[i])`. -/
def countChunksInArray (counts chunkDims : List Nat) : Nat :=
  ((counts.zip chunkDims).map (fun p => (p.1 + p.2 - 1) / p.2)).prod

/-- State of `OmFileWriterArray` from `src/io/writer.rs` (the fields the
verified claims depend on; the C `OmEncoder_t` is represented by the
dimension data it was initialized with, and `compressed_chunk_buffer_size`
is the C-computed bound passed in at construction). -/
structure OmFileWriterArray where
  look_up_table : List Nat
  chunk_index : Nat
  n_chunks : Nat
  dimensions : List Nat
  chunks : List Nat
  compressed_chunk_buffer_size : Nat
  buffer : OmBufferedWriter
  deriving DecidableEq, Repr

/-- LUT entry `i` (entries are `u64`, modelled as `Nat`). -/
def lutAt (a : OmFileWriterArray) (i : Nat) : Nat :=
  a.look_up_table.getD i 0

/-- `OmFileWriterArray::new`: rejects rank mismatch between dimensions and
chunk dimensions, then allocates the zeroed LUT of `n_chunks + 1` entries. -/
def arrayWriterNew (dims chunkDims : List Nat) (ccbs : Nat) (buf : OmBufferedWriter) :
    Except OmError OmFileWriterArray :=
  if dims.length ≠ chunkDims.length then Except.error OmError.mismatchingCubeDimensionLength
  else Except.ok
    { look_up_table := List.replicate (countChunks dims chunkDims + 1) 0
      chunk_index := 0
      n_chunks := countChunks dims chunkDims
      dimensions := dims
      chunks := chunkDims
      compressed_chunk_buffer_size := ccbs
      buffer := buf }

/-- The first `(offset, count, dimension)` triple violating
`offset + count ≤ dim`, scanning `array_dimensions` zipped with offsets and
counts exactly as the source's loop does. -/
def firstExceed (dims offsets counts : List Nat) : Option (Nat × Nat × Nat) :=
  ((dims.zip (offsets.zip counts)).find? (fun p => decide (p.1 < p.2.1 + p.2.2))).map
    (fun p => (p.2.1, p.2.2, p.1))

/-- One iteration of `write_data_flat`'s chunk loop: reserve the
compressed-chunk bound, write the chunk's compressed bytes (`chunkBytes`,
the output of the C `om_encoder_compress_chunk` for this chunk index),
advance, record `LUT[chunk_index + 1] = total_bytes_written`, and bump
`chunk_index`. -/
def writeOneChunk (chunkBytes : Nat → List Nat) (a : OmFileWriterArray) :
    OmFileWriterArray :=
  let buf2 := (((a.buffer.reallocate a.compressed_chunk_buffer_size).writeRaw
      (chunkBytes a.chunk_index)).increment_write_position (chunkBytes a.chunk_index).length)
  { a with buffer := buf2
           look_up_table := a.look_up_table.set (a.chunk_index + 1) buf2.total_bytes_written
           chunk_index := a.chunk_index + 1 }

/-- The chunk loop of `write_data_flat`, running over
`number_of_chunks_in_array` chunk offsets. -/
def writeChunksLoop (chunkBytes : Nat → List Nat) : Nat → OmFileWriterArray →
    OmFileWriterArray
  | 0, a => a
  | k + 1, a => writeChunksLoop chunkBytes k (writeOneChunk chunkBytes a)

/-- The mutation phase of `write_data_flat`, entered only after all four
validations pass: reserve four compressed-chunk bounds, seed
`LUT[0] = total_bytes_written` on the very first write, then run the chunk
loop. -/
def writeDataBody (chunkBytes : Nat → List Nat) (a : OmFileWriterArray)
    (array_count : List Nat) : OmFileWriterArray :=
  writeChunksLoop chunkBytes (countChunksInArray array_count a.chunks)
    (if a.chunk_index = 0 then
      { a with
        buffer := a.buffer.reallocate (a.compressed_chunk_buffer_size * 4)
        look_up_table := a.look_up_table.set 0
          (a.buffer.reallocate (a.compressed_chunk_buffer_size * 4)).total_bytes_written }
    else
      { a with buffer := a.buffer.reallocate (a.compressed_chunk_buffer_size * 4) })

/-- The four validations of `write_data_flat`, in source order, returning
the first error (the early-return chain of the source factored as a
first-error function). -/
def validateWrite (a : OmFileWriterArray) (array : List Nat)
    (array_dimensions array_offset array_count : List Nat) : Option OmError :=
  if array_count.length ≠ a.dimensions.length then
    some OmError.chunkHasWrongNumberOfElements
  else if (array_count.zip a.dimensions).any (fun p => decide (p.2 < p.1)) then
    some OmError.chunkHasWrongNumberOfElements
  else if array.length ≠ array_dimensions.prod then
    some OmError.chunkHasWrongNumberOfElements
  else
    (firstExceed array_dimensions array_offset array_count).map
      (fun t => OmError.offsetAndCountExceedDimension t.1 t.2.1 t.2.2)

/-- `OmFileWriterArray::write_data_flat` from `src/io/writer.rs`: resolve
the optional arguments exactly as the source's `unwrap_or` does, run the
four validations in order, and on success reserve buffer space, seed
`LUT[0]` on the first write, and compress the covered chunks. Returns the
result together with the array-writer state at return time. -/
def write_data_flat (chunkBytes : Nat → List Nat) (a : OmFileWriterArray)
    (array : List Nat) (array_dimensionsO array_offsetO array_countO : Option (List Nat)) :
    Except OmError Unit × OmFileWriterArray :=
  match validateWrite a array (array_dimensionsO.getD a.dimensions)
      (array_offsetO.getD (List.replicate (array_dimensionsO.getD a.dimensions).length 0))
      (array_countO.getD (array_dimensionsO.getD a.dimensions)) with
  | some e => (Except.error e, a)
  | none => (Except.ok (),
      writeDataBody chunkBytes a (array_countO.getD (array_dimensionsO.getD a.dimensions)))

/-- `OmFileWriterArray::write_lut`: reserve the C-computed LUT buffer bound,
write the compressed LUT bytes (the output of `om_encoder_compress_lut`),
advance, and return the compressed size. -/
def write_lut (lutBufSize : Nat) (lutBytes : List Nat) (a : OmFileWriterArray) :
    Nat × OmFileWriterArray :=
  (lutBytes.length,
    { a with buffer :=
        (((a.buffer.reallocate lutBufSize).writeRaw lutBytes).increment_write_position
          lutBytes.length) })

/-- `OmFileWriterArrayFinalized` from `src/io/writer.rs` (the layout fields
the claims are about). -/
structure OmFileWriterArrayFinalized where
  dimensions : List Nat
  chunks : List Nat
  lut_size : Nat
  lut_offset : Nat
  deriving DecidableEq, Repr

/-- `OmFileWriterArray::finalize`: capture `lut_offset` as the current
`total_bytes_written`, compress and write the LUT, and return the
finalized metadata (with the state after the LUT write). -/
def finalize (lutBufSize : Nat) (lutBytes : List Nat) (a : OmFileWriterArray) :
    OmFileWriterArrayFinalized × OmFileWriterArray :=
  ({ dimensions := a.dimensions
     chunks := a.chunks
     lut_size := (write_lut lutBufSize lutBytes a).1
     lut_offset := a.buffer.total_bytes_written }, (write_lut lutBufSize lutBytes a).2)

/-- C9: every validation failure of `write_data_flat` — wrong `array_count`
rank, an `array_count` entry exceeding its stored dimension, or a flat
input whose length differs from the product of `array_dimensions` — returns
`ChunkHasWrongNumberOfElements`, not `MismatchingCubeDimensionLength`. -/
theorem c9_shape_errors_are_chunk_errors (chunkBytes : Nat → List Nat)
    (a : OmFileWriterArray) (array : List Nat)
    (array_dimensionsO array_offsetO array_countO : Option (List Nat))
    (h : ((array_countO.getD (array_dimensionsO.getD a.dimensions)).length ≠
            a.dimensions.length) ∨
         (∃ p ∈ (array_countO.getD (array_dimensionsO.getD a.dimensions)).zip a.dimensions,
            p.2 < p.1) ∨
         (array.length ≠ (array_dimensionsO.getD a.dimensions).prod)) :
    (write_data_flat chunkBytes a array array_dimensionsO array_offsetO array_countO).1 =
      Except.error OmError.chunkHasWrongNumberOfElements := by
  have hval : validateWrite a array (array_dimensionsO.getD a.dimensions)
      (array_offsetO.getD (List.replicate (array_dimensionsO.getD a.dimensions).length 0))
      (array_countO.getD (array_dimensionsO.getD a.dimensions)) =
      some OmError.chunkHasWrongNumberOfElements := by
    unfold validateWrite
    split
    · rfl
    · split
      · rfl
      · split
        · rfl
        · rename_i h1 h2 h3
          exfalso
          rcases h with h | h | h
          · exact h1 h
          · apply h2
            rw [List.any_eq_true]
            obtain ⟨p, hp, hlt⟩ := h
            exact ⟨p, hp, by simpa using hlt⟩
          · exact h3 h
  unfold write_data_flat
  rw [hval]

/-- Witness for C9 at a concrete mismatching call (the shape of the
repository's own `test_chunk_has_wrong_number_of_elements`). -/
theorem c9_shape_errors_are_chunk_errors_witness :
    (write_data_flat (fun _ => [1])
        { look_up_table := [0, 0], chunk_index := 0, n_chunks := 1, dimensions := [10, 10],
          chunks := [5, 5], compressed_chunk_buffer_size := 4,
          buffer := OmBufferedWriter.new 8 }
        (List.replicate 110 1) (some [10, 11]) none none).1 =
      Except.error OmError.chunkHasWrongNumberOfElements :=
  c9_shape_errors_are_chunk_errors (fun _ => [1]) _ (List.replicate 110 1)
    (some [10, 11]) none none (by right; left; decide)

/-- C10: whenever `write_data_flat` returns a validation error, the
array-writer state at return time is exactly the state before the call:
`chunk_index`, the lookup table, and the buffered writer (hence
`total_bytes_written`) are untouched. -/
theorem c10_validation_is_atomic (chunkBytes : Nat → List Nat)
    (a : OmFileWriterArray) (array : List Nat)
    (array_dimensionsO array_offsetO array_countO : Option (List Nat)) (e : OmError)
    (h : (write_data_flat chunkBytes a array array_dimensionsO array_offsetO
        array_countO).1 = Except.error e) :
    (write_data_flat chunkBytes a array array_dimensionsO array_offsetO
        array_countO).2 = a := by
  unfold write_data_flat at *
  split at h
  · rfl
  · simp at h

/-- Witness for C10 at a concrete failing call. -/
theorem c10_validation_is_atomic_witness :
    (write_data_flat (fun _ => [1])
        { look_up_table := [0, 0], chunk_index := 0, n_chunks := 1, dimensions := [10, 10],
          chunks := [5, 5], compressed_chunk_buffer_size := 4,
          buffer := OmBufferedWriter.new 8 }
        (List.replicate 110 1) (some [10, 11]) none none).2 =
      { look_up_table := [0, 0], chunk_index := 0, n_chunks := 1, dimensions := [10, 10],
        chunks := [5, 5], compressed_chunk_buffer_size := 4,
        buffer := OmBufferedWriter.new 8 } :=
  c10_validation_is_atomic (fun _ => [1]) _ (List.replicate 110 1) (some [10, 11]) none none
    OmError.chunkHasWrongNumberOfElements rfl

/-- One `write_data` call as issued by a caller: the flat values and the
three optional shape arguments. -/
def WriteCall : Type :=
  List Nat × Option (List Nat) × Option (List Nat) × Option (List Nat)

/-- Run a sequence of `write_data_flat` calls, stopping at the first
error. -/
def runWrites (chunkBytes : Nat → List Nat) :
    List WriteCall → OmFileWriterArray → Except OmError OmFileWriterArray
  | [], a => Except.ok a
  | c :: rest, a =>
      match write_data_flat chunkBytes a c.1 c.2.1 c.2.2.1 c.2.2.2 with
      | (Except.ok _, a1) => runWrites chunkBytes rest a1
      | (Except.error e, _) => Except.error e

theorem lutAt_set_ne (l : List Nat) (i j v : Nat) (h : i ≠ j) :
    (l.set i v).getD j 0 = l.getD j 0 := by
  simp [List.getD_eq_getElem?_getD, List.getElem?_set_ne h]

theorem lutAt_set_self (l : List Nat) (i v : Nat) (h : i < l.length) :
    (l.set i v).getD i 0 = v := by
  simp [List.getD_eq_getElem?_getD, List.getElem?_set_self, h]

/-- Loop invariant of the chunk loop: the LUT has its allocated length, is
strictly increasing below `chunk_index`, and its entry at `chunk_index` is
the current absolute offset. -/
def loopInv (a : OmFileWriterArray) : Prop :=
  a.look_up_table.length = a.n_chunks + 1 ∧
    (∀ i, i < a.chunk_index → lutAt a i < lutAt a (i + 1)) ∧
    lutAt a a.chunk_index = a.buffer.total_bytes_written

/-- Invariant between `write_data` calls: as `loopInv` but the entry at
`chunk_index` is only bounded by the current offset (and equal to it once a
chunk has been written) — the fresh LUT holds zeros. -/
def lutInv (a : OmFileWriterArray) : Prop :=
  a.look_up_table.length = a.n_chunks + 1 ∧
    (∀ i, i < a.chunk_index → lutAt a i < lutAt a (i + 1)) ∧
    lutAt a a.chunk_index ≤ a.buffer.total_bytes_written ∧
    (0 < a.chunk_index → lutAt a a.chunk_index = a.buffer.total_bytes_written)

theorem writeOneChunk_fields (chunkBytes : Nat → List Nat) (a : OmFileWriterArray) :
    (writeOneChunk chunkBytes a).n_chunks = a.n_chunks ∧
    (writeOneChunk chunkBytes a).dimensions = a.dimensions ∧
    (writeOneChunk chunkBytes a).chunks = a.chunks ∧
    (writeOneChunk chunkBytes a).chunk_index = a.chunk_index + 1 :=
  ⟨rfl, rfl, rfl, rfl⟩

theorem writeOneChunk_inv (chunkBytes : Nat → List Nat) (a : OmFileWriterArray)
    (hpos : 0 < (chunkBytes a.chunk_index).length)
    (hci : a.chunk_index < a.n_chunks) (h : loopInv a) :
    loopInv (writeOneChunk chunkBytes a) ∧
      a.buffer.total_bytes_written ≤ (writeOneChunk chunkBytes a).buffer.total_bytes_written := by
  obtain ⟨hlen, hmono, heq⟩ := h
  have htot : (((a.buffer.reallocate a.compressed_chunk_buffer_size).writeRaw
        (chunkBytes a.chunk_index)).increment_write_position
          (chunkBytes a.chunk_index).length).total_bytes_written =
      a.buffer.total_bytes_written + (chunkBytes a.chunk_index).length :=
    OmBufferedWriter.total_reallocWrite _ _ _
  constructor
  · refine ⟨?_, ?_, ?_⟩
    · simp only [writeOneChunk, List.length_set]
      exact hlen
    · intro i hi
      simp only [writeOneChunk, lutAt] at *
      rcases Nat.lt_or_ge i a.chunk_index with hlt | hge
      · rw [lutAt_set_ne _ _ _ _ (by omega), lutAt_set_ne _ _ _ _ (by omega)]
        exact hmono i hlt
      · have hieq : i = a.chunk_index := by omega
        subst hieq
        rw [lutAt_set_ne _ _ _ _ (by omega)]
        rw [lutAt_set_self _ _ _ (by omega)]
        rw [htot]
        omega
    · simp only [writeOneChunk, lutAt]
      rw [lutAt_set_self _ _ _ (by omega)]
  · simp only [writeOneChunk]
    rw [htot]
    omega

theorem writeChunksLoop_ci (chunkBytes : Nat → List Nat) (k : Nat) (a : OmFileWriterArray) :
    (writeChunksLoop chunkBytes k a).chunk_index = a.chunk_index + k ∧
    (writeChunksLoop chunkBytes k a).n_chunks = a.n_chunks ∧
    (writeChunksLoop chunkBytes k a).dimensions = a.dimensions ∧
    (writeChunksLoop chunkBytes k a).chunks = a.chunks := by
  induction k generalizing a with
  | zero => exact ⟨rfl, rfl, rfl, rfl⟩
  | succ n ih =>
      have hx := ih (writeOneChunk chunkBytes a)
      have hf := writeOneChunk_fields chunkBytes a
      simp only [writeChunksLoop]
      refine ⟨?_, ?_, ?_, ?_⟩
      · rw [hx.1, hf.2.2.2]
        omega
      · rw [hx.2.1, hf.1]
      · rw [hx.2.2.1, hf.2.1]
      · rw [hx.2.2.2, hf.2.2.1]

theorem writeChunksLoop_ci_eq (chunkBytes : Nat → List Nat) (k : Nat)
    (a : OmFileWriterArray) :
    (writeChunksLoop chunkBytes k a).chunk_index = a.chunk_index + k :=
  (writeChunksLoop_ci chunkBytes k a).1

theorem writeChunksLoop_inv (chunkBytes : Nat → List Nat)
    (hpos : ∀ i, 0 < (chunkBytes i).length) (k : Nat) (a : OmFileWriterArray)
    (hk : a.chunk_index + k ≤ a.n_chunks) (h : loopInv a) :
    loopInv (writeChunksLoop chunkBytes k a) ∧
      a.buffer.total_bytes_written ≤
        (writeChunksLoop chunkBytes k a).buffer.total_bytes_written := by
  induction k generalizing a with
  | zero => exact ⟨h, le_refl _⟩
  | succ n ih =>
      have hstep := writeOneChunk_inv chunkBytes a (hpos _) (by omega) h
      have hrest := ih (writeOneChunk chunkBytes a)
        (by
          have := (writeOneChunk_fields chunkBytes a).1
          have := (writeOneChunk_fields chunkBytes a).2.2.2
          omega)
        hstep.1
      exact ⟨hrest.1, le_trans hstep.2 hrest.2⟩

theorem writeDataBody_pre_inv (_chunkBytes : Nat → List Nat) (a : OmFileWriterArray)
    (h : lutInv a) :
    loopInv (if a.chunk_index = 0 then
        { a with
          buffer := a.buffer.reallocate (a.compressed_chunk_buffer_size * 4)
          look_up_table := a.look_up_table.set 0
            (a.buffer.reallocate (a.compressed_chunk_buffer_size * 4)).total_bytes_written }
      else
        { a with buffer := a.buffer.reallocate (a.compressed_chunk_buffer_size * 4) }) := by
  obtain ⟨hlen, hmono, hle, heq⟩ := h
  have htot := OmBufferedWriter.reallocate_total a.buffer (a.compressed_chunk_buffer_size * 4)
  split
  · rename_i hz
    refine ⟨by simpa using hlen, ?_, ?_⟩
    · intro i hi
      simp only [hz] at hi
      omega
    · simp only [lutAt, hz]
      rw [lutAt_set_self _ _ _ (by omega)]
  · rename_i hz
    refine ⟨hlen, hmono, ?_⟩
    simp only [lutAt] at *
    rw [htot]
    exact heq (Nat.pos_of_ne_zero hz)

theorem writeDataBody_inv (chunkBytes : Nat → List Nat)
    (hpos : ∀ i, 0 < (chunkBytes i).length) (a : OmFileWriterArray)
    (array_count : List Nat) (h : lutInv a)
    (hbound : a.chunk_index + countChunksInArray array_count a.chunks ≤ a.n_chunks) :
    lutInv (writeDataBody chunkBytes a array_count) ∧
      (writeDataBody chunkBytes a array_count).chunk_index =
        a.chunk_index + countChunksInArray array_count a.chunks ∧
      (writeDataBody chunkBytes a array_count).n_chunks = a.n_chunks := by
  have hpre := writeDataBody_pre_inv chunkBytes a h
  unfold writeDataBody
  have hfields : ∀ (b : OmFileWriterArray),
      b = (if a.chunk_index = 0 then
        { a with
          buffer := a.buffer.reallocate (a.compressed_chunk_buffer_size * 4)
          look_up_table := a.look_up_table.set 0
            (a.buffer.reallocate (a.compressed_chunk_buffer_size * 4)).total_bytes_written }
      else
        { a with buffer := a.buffer.reallocate (a.compressed_chunk_buffer_size * 4) }) →
      b.chunk_index = a.chunk_index ∧ b.n_chunks = a.n_chunks := by
    intro b hb
    subst hb
    split <;> exact ⟨rfl, rfl⟩
  obtain ⟨hci, hn⟩ := hfields _ rfl
  have hloop := writeChunksLoop_inv chunkBytes hpos
    (countChunksInArray array_count a.chunks) _ (by rw [hci, hn]; exact hbound) hpre
  have hciL := writeChunksLoop_ci chunkBytes (countChunksInArray array_count a.chunks)
    (if a.chunk_index = 0 then
        { a with
          buffer := a.buffer.reallocate (a.compressed_chunk_buffer_size * 4)
          look_up_table := a.look_up_table.set 0
            (a.buffer.reallocate (a.compressed_chunk_buffer_size * 4)).total_bytes_written }
      else
        { a with buffer := a.buffer.reallocate (a.compressed_chunk_buffer_size * 4) })
  refine ⟨?_, ?_, ?_⟩
  · obtain ⟨hl1, hl2, hl3⟩ := hloop.1
    exact ⟨hl1, hl2, le_of_eq hl3, fun _ => hl3⟩
  · rw [hciL.1, hci]
  · rw [hciL.2.1, hn]

theorem getD_replicate_zero (n i : Nat) : (List.replicate n (0 : Nat)).getD i 0 = 0 := by
  simp [List.getD_eq_getElem?_getD, List.getElem?_replicate]
  split <;> rfl

theorem writeDataBody_fields (chunkBytes : Nat → List Nat) (a : OmFileWriterArray)
    (ac : List Nat) :
    (writeDataBody chunkBytes a ac).chunk_index =
      a.chunk_index + countChunksInArray ac a.chunks ∧
    (writeDataBody chunkBytes a ac).n_chunks = a.n_chunks := by
  unfold writeDataBody
  rcases writeChunksLoop_ci chunkBytes (countChunksInArray ac a.chunks)
    (if a.chunk_index = 0 then
        { a with
          buffer := a.buffer.reallocate (a.compressed_chunk_buffer_size * 4)
          look_up_table := a.look_up_table.set 0
            (a.buffer.reallocate (a.compressed_chunk_buffer_size * 4)).total_bytes_written }
      else
        { a with buffer := a.buffer.reallocate (a.compressed_chunk_buffer_size * 4) })
    with ⟨h1, h2, _, _⟩
  have hx : (if a.chunk_index = 0 then
      { a with
        buffer := a.buffer.reallocate (a.compressed_chunk_buffer_size * 4)
        look_up_table := a.look_up_table.set 0
          (a.buffer.reallocate (a.compressed_chunk_buffer_size * 4)).total_bytes_written }
    else
      { a with buffer := a.buffer.reallocate (a.compressed_chunk_buffer_size * 4)
        }).chunk_index = a.chunk_index := by
    split <;> rfl
  have hy : (if a.chunk_index = 0 then
      { a with
        buffer := a.buffer.reallocate (a.compressed_chunk_buffer_size * 4)
        look_up_table := a.look_up_table.set 0
          (a.buffer.reallocate (a.compressed_chunk_buffer_size * 4)).total_bytes_written }
    else
      { a with buffer := a.buffer.reallocate (a.compressed_chunk_buffer_size * 4)
        }).n_chunks = a.n_chunks := by
    split <;> rfl
  exact ⟨by rw [h1, hx], by rw [h2, hy]⟩

theorem write_data_flat_ok (chunkBytes : Nat → List Nat) (a : OmFileWriterArray)
    (array : List Nat) (adO aoO acO : Option (List Nat)) (v : Unit) (a1 : OmFileWriterArray)
    (h : write_data_flat chunkBytes a array adO aoO acO = (Except.ok v, a1)) :
    a1 = writeDataBody chunkBytes a (acO.getD (adO.getD a.dimensions)) := by
  unfold write_data_flat at h
  split at h
  · simp at h
  · simp only [Prod.mk.injEq] at h
    exact h.2.symm

theorem runWrites_mono (chunkBytes : Nat → List Nat) (calls : List WriteCall) :
    ∀ (a0 a : OmFileWriterArray), runWrites chunkBytes calls a0 = Except.ok a →
      a0.chunk_index ≤ a.chunk_index ∧ a.n_chunks = a0.n_chunks := by
  induction calls with
  | nil =>
      intro a0 a h
      unfold runWrites at h
      cases h
      exact ⟨le_refl _, rfl⟩
  | cons c rest ih =>
      intro a0 a h
      unfold runWrites at h
      split at h
      · rename_i v a1 hmatch
        have ha1 := write_data_flat_ok chunkBytes a0 c.1 c.2.1 c.2.2.1 c.2.2.2 v a1 hmatch
        have hf := writeDataBody_fields chunkBytes a0 (c.2.2.2.getD (c.2.1.getD a0.dimensions))
        have hrest := ih a1 a h
        rw [ha1] at hrest
        exact ⟨by omega, by omega⟩
      · simp at h

theorem runWrites_inv (chunkBytes : Nat → List Nat)
    (hpos : ∀ i, 0 < (chunkBytes i).length) (calls : List WriteCall) :
    ∀ (a0 a : OmFileWriterArray), runWrites chunkBytes calls a0 = Except.ok a →
      lutInv a0 → a.chunk_index ≤ a.n_chunks → lutInv a := by
  induction calls with
  | nil =>
      intro a0 a h hinv _
      unfold runWrites at h
      cases h
      exact hinv
  | cons c rest ih =>
      intro a0 a h hinv hb
      unfold runWrites at h
      split at h
      · rename_i v a1 hmatch
        have ha1 := write_data_flat_ok chunkBytes a0 c.1 c.2.1 c.2.2.1 c.2.2.2 v a1 hmatch
        have hf := writeDataBody_fields chunkBytes a0 (c.2.2.2.getD (c.2.1.getD a0.dimensions))
        have hrest := runWrites_mono chunkBytes rest a1 a h
        have hbound : a0.chunk_index +
            countChunksInArray (c.2.2.2.getD (c.2.1.getD a0.dimensions)) a0.chunks ≤
            a0.n_chunks := by
          rw [ha1] at hrest
          omega
        have hinv1 := writeDataBody_inv chunkBytes hpos a0
          (c.2.2.2.getD (c.2.1.getD a0.dimensions)) hinv hbound
        exact ih a1 a h (ha1 ▸ hinv1.1) hb
      · simp at h

theorem arrayWriterNew_inv (dims chunkDims : List Nat) (ccbs : Nat)
    (buf0 : OmBufferedWriter) (a0 : OmFileWriterArray)
    (h : arrayWriterNew dims chunkDims ccbs buf0 = Except.ok a0) :
    lutInv a0 ∧ a0.chunk_index = 0 := by
  unfold arrayWriterNew at h
  split at h
  · simp at h
  · cases h
    refine ⟨⟨by simp, ?_, ?_, ?_⟩, rfl⟩
    · intro i hi
      simp at hi
    · simp only [lutAt]
      rw [getD_replicate_zero]
      exact Nat.zero_le _
    · intro hx
      simp at hx

/-- C2: for every finalized array that was fully written (every chunk
emitted, in any split of `write_data` calls), the lookup table is strictly
increasing — `LUT[i] < LUT[i+1]` for all `i < n_chunks` — and the final
entry `LUT[n_chunks]` is at most `lut_offset`, the offset `finalize`
records for the compressed LUT. The compressed chunk byte runs come from
the C codec (outside src/); per the spec each chunk compresses to at least
one byte (`hpos`). -/
theorem c2_lut_monotone (chunkBytes : Nat → List Nat)
    (hpos : ∀ i, 0 < (chunkBytes i).length) (dims chunkDims : List Nat)
    (ccbs lutBufSize : Nat) (lutBytes : List Nat) (buf0 : OmBufferedWriter)
    (calls : List WriteCall) (a0 a : OmFileWriterArray)
    (hnew : arrayWriterNew dims chunkDims ccbs buf0 = Except.ok a0)
    (hrun : runWrites chunkBytes calls a0 = Except.ok a)
    (hfull : a.chunk_index = a.n_chunks) :
    (∀ i, i < a.n_chunks → lutAt a i < lutAt a (i + 1)) ∧
      lutAt a a.n_chunks ≤ (finalize lutBufSize lutBytes a).1.lut_offset := by
  have hinit := arrayWriterNew_inv dims chunkDims ccbs buf0 a0 hnew
  have hinv := runWrites_inv chunkBytes hpos calls a0 a hrun hinit.1 (le_of_eq hfull)
  obtain ⟨hlen, hmono, hle, _⟩ := hinv
  constructor
  · intro i hi
    exact hmono i (by omega)
  · have : (finalize lutBufSize lutBytes a).1.lut_offset = a.buffer.total_bytes_written := rfl
    rw [this, ← hfull]
    exact hle

/-- The fresh array-writer state of the C2 witness: one 1-element chunk,
zeroed LUT, over a fresh buffered writer. -/
def c2StartState : OmFileWriterArray :=
  { look_up_table := [0, 0]
    chunk_index := 0
    n_chunks := 1
    dimensions := [1]
    chunks := [1]
    compressed_chunk_buffer_size := 2
    buffer := OmBufferedWriter.new 8 }

/-- The C2 witness state after writing the single chunk (one compressed
byte at offset 0). -/
def c2FullState : OmFileWriterArray :=
  { look_up_table := [0, 1]
    chunk_index := 1
    n_chunks := 1
    dimensions := [1]
    chunks := [1]
    compressed_chunk_buffer_size := 2
    buffer :=
      { buffer := [9, 0, 0, 0, 0, 0, 0, 0]
        backendData := []
        syncCount := 0
        write_position := 1
        total_bytes_written := 1
        initial_capacity := 8 } }

/-- Witness for C2: a 1-element array with one 1-element chunk, written in
one call, whose single compressed chunk is one byte. -/
theorem c2_lut_monotone_witness :
    lutAt c2FullState 0 < lutAt c2FullState 1 ∧
      lutAt c2FullState 1 ≤ (finalize 3 [7] c2FullState).1.lut_offset := by
  have h := c2_lut_monotone (fun _ => [9]) (fun _ => one_pos) [1] [1] 2 3 [7]
    (OmBufferedWriter.new 8) [([5], none, none, none)] c2StartState c2FullState
    rfl rfl rfl
  exact ⟨h.1 0 one_pos, h.2⟩

/-- Counterexample to C2 as stated: `finalize` has no completeness check
and consumes the array writer at any time, so an array can be finalized
before all chunks are written. A fresh 1-chunk array finalized with no
chunks written keeps its zeroed LUT, which is not strictly increasing:
`LUT[0] < LUT[1]` fails. -/
theorem c2_counterexample :
    arrayWriterNew [1] [1] 2 (OmBufferedWriter.new 8) = Except.ok c2StartState ∧
    c2StartState.chunk_index < c2StartState.n_chunks ∧
    (finalize 3 [7] c2StartState).1.lut_offset =
      c2StartState.buffer.total_bytes_written ∧
    ¬ lutAt c2StartState 0 < lutAt c2StartState 1 :=
  ⟨rfl, by decide, rfl, by decide⟩

/-- Decidable equality for `Except` results, so concrete runs can be
checked by `decide`. -/
instance {ε α : Type} [DecidableEq ε] [DecidableEq α] : DecidableEq (Except ε α) :=
  fun x y =>
    match x, y with
    | Except.error e, Except.error f =>
        if h : e = f then Decidable.isTrue (by rw [h])
        else Decidable.isFalse (fun hx => h (Except.error.inj hx))
    | Except.error _, Except.ok _ => Decidable.isFalse (fun hx => Except.noConfusion hx)
    | Except.ok _, Except.error _ => Decidable.isFalse (fun hx => Except.noConfusion hx)
    | Except.ok a, Except.ok b =>
        if h : a = b then Decidable.isTrue (by rw [h])
        else Decidable.isFalse (fun hx => h (Except.ok.inj hx))

/-- Kind of Python exception raised by the index layer
(`src/array_index.rs`); messages are elided, the kind distinguishes
`PyIndexError` from `PyValueError`. -/
inductive PyErrKind where
  | indexError : PyErrKind
  | valueError : PyErrKind
  deriving DecidableEq, Repr

/-- `IndexType` from `src/array_index.rs`: integer, slice (with optional
start/stop/step), or newaxis. -/
inductive IndexType where
  | int : Int → IndexType
  | slice : Option Int → Option Int → Option Int → IndexType
  | newAxis : IndexType
  deriving DecidableEq, Repr

/-- `ArrayIndex::normalize_index`: add the dimension size to a negative
index, then reject anything still negative or beyond the dimension. -/
def normalizeIndex (idx : Int) (dim : Nat) : Except PyErrKind Nat :=
  let normalized := if idx < 0 then idx + dim else idx
  if normalized < 0 ∨ (dim : Int) < normalized then Except.error PyErrKind.indexError
  else Except.ok normalized.toNat

/-- One slice bound of `to_read_range`: normalize an explicit bound (with
the source's redundant `normalized > dim_size` re-check) or use the
default. -/
def resolveBound (b : Option Int) (dflt : Nat) (dim : Nat) : Except PyErrKind Nat :=
  match b with
  | some s =>
      match normalizeIndex s dim with
      | Except.error e => Except.error e
      | Except.ok n => if dim < n then Except.error PyErrKind.indexError else Except.ok n
  | none => Except.ok dflt

/-- The slice arm of `to_read_range`: reject step ≠ 1, resolve both bounds,
reject reversed or empty ranges. -/
def processSlice (start stop step : Option Int) (dim : Nat) :
    Except PyErrKind (Nat × Nat) :=
  match step with
  | some k =>
      if k ≠ 1 then Except.error PyErrKind.valueError
      else
        match resolveBound start 0 dim with
        | Except.error e => Except.error e
        | Except.ok s =>
            match resolveBound stop dim dim with
            | Except.error e => Except.error e
            | Except.ok e2 =>
                if e2 ≤ s then Except.error PyErrKind.valueError else Except.ok (s, e2)
  | none =>
      match resolveBound start 0 dim with
      | Except.error e => Except.error e
      | Except.ok s =>
          match resolveBound stop dim dim with
          | Except.error e => Except.error e
          | Except.ok e2 =>
              if e2 ≤ s then Except.error PyErrKind.valueError else Except.ok (s, e2)

/-- The loop body of `to_read_range` over the zip of index items and shape
dimensions: each item yields a half-open range, and the second component
counts how many items advanced `shape_idx` (newaxis does not). -/
def toReadRangeLoop : List IndexType → List Nat →
    Except PyErrKind (List (Nat × Nat) × Nat)
  | [], _ => Except.ok ([], 0)
  | _ :: _, [] => Except.ok ([], 0)
  | i :: is, d :: ds =>
      match i with
      | IndexType.int v =>
          match normalizeIndex v d with
          | Except.error e => Except.error e
          | Except.ok n =>
              match toReadRangeLoop is ds with
              | Except.error e => Except.error e
              | Except.ok (ranges, k) => Except.ok ((n, n + 1) :: ranges, 1 + k)
      | IndexType.slice start stop step =>
          match processSlice start stop step d with
          | Except.error e => Except.error e
          | Except.ok r =>
              match toReadRangeLoop is ds with
              | Except.error e => Except.error e
              | Except.ok (ranges, k) => Except.ok (r :: ranges, 1 + k)
      | IndexType.newAxis =>
          match toReadRangeLoop is ds with
          | Except.error e => Except.error e
          | Except.ok (ranges, k) => Except.ok ((0, d) :: ranges, k)

/-- `ArrayIndex::to_read_range` from `src/array_index.rs`: rank checks,
then the per-item loop, then full ranges for any shape dimensions not
consumed by non-newaxis items. Pure — no backend I/O is reachable from
here. -/
def toReadRange (idx : List IndexType) (shape : List Nat) :
    Except PyErrKind (List (Nat × Nat)) :=
  if shape.length < idx.length then Except.error PyErrKind.indexError
  else if idx.length < shape.length then Except.error PyErrKind.indexError
  else
    match toReadRangeLoop idx shape with
    | Except.error e => Except.error e
    | Except.ok (ranges, shapeIdx) =>
        Except.ok (ranges ++ (shape.drop shapeIdx).map (fun d => (0, d)))

/-- Counterexample to C4 as stated: the negative integer index `-2` on a
dimension of size 5 is not rejected — it is normalized to 3 and the call
succeeds (as the repository's own `test_negative_indexing` expects). -/
theorem c4_counterexample :
    toReadRange [IndexType.int (-2)] [5] = Except.ok [(3, 4)] := by decide

theorem toReadRangeLoop_bad_step (idx : List IndexType) (shape : List Nat)
    (hlen : idx.length = shape.length)
    (hbad : ∃ s st k, IndexType.slice s st (some k) ∈ idx ∧ k ≠ 1) :
    ∀ v, toReadRangeLoop idx shape ≠ Except.ok v := by
  induction idx generalizing shape with
  | nil =>
      obtain ⟨s, st, k, hmem, _⟩ := hbad
      simp at hmem
  | cons i is ih =>
      cases shape with
      | nil => simp at hlen
      | cons d ds =>
          intro v hv
          obtain ⟨s, st, k, hmem, hk⟩ := hbad
          rcases List.mem_cons.mp hmem with hhead | htail
          · have hps : processSlice s st (some k) d = Except.error PyErrKind.valueError := by
              simp only [processSlice]
              rw [if_pos hk]
            rw [← hhead] at hv
            simp [toReadRangeLoop, hps] at hv
          · cases i with
            | int w =>
                simp only [toReadRangeLoop] at hv
                cases hn : normalizeIndex w d with
                | error e => simp [hn] at hv
                | ok n =>
                    cases hl : toReadRangeLoop is ds with
                    | error e => simp [hn, hl] at hv
                    | ok p => exact ih ds (by simpa using hlen) ⟨s, st, k, htail, hk⟩ p hl
            | slice a b c =>
                simp only [toReadRangeLoop] at hv
                cases hn : processSlice a b c d with
                | error e => simp [hn] at hv
                | ok r =>
                    cases hl : toReadRangeLoop is ds with
                    | error e => simp [hn, hl] at hv
                    | ok p => exact ih ds (by simpa using hlen) ⟨s, st, k, htail, hk⟩ p hl
            | newAxis =>
                simp only [toReadRangeLoop] at hv
                cases hl : toReadRangeLoop is ds with
                | error e => simp [hl] at hv
                | ok p => exact ih ds (by simpa using hlen) ⟨s, st, k, htail, hk⟩ p hl

/-- C4 (amended): the index layer rejects every slice whose step differs
from 1 with a `ValueError` before any I/O (`to_read_range` is pure);
negative integer indices and slice bounds are not rejected outright — they
are normalized by adding the dimension size, and rejected with an
`IndexError` exactly when the normalized value is still negative. -/
theorem c4_step_rejected_negatives_normalized :
    (∀ (i : Int) (d : Nat), i < 0 →
        normalizeIndex i d = (if i + d < 0 then Except.error PyErrKind.indexError
          else Except.ok (i + d).toNat)) ∧
    (∀ (start stop : Option Int) (k : Int) (rest : List IndexType) (d : Nat)
        (ds : List Nat), k ≠ 1 → rest.length = ds.length →
        toReadRange (IndexType.slice start stop (some k) :: rest) (d :: ds) =
          Except.error PyErrKind.valueError) ∧
    (∀ (idx : List IndexType) (shape : List Nat), idx.length = shape.length →
        (∃ s st k, IndexType.slice s st (some k) ∈ idx ∧ k ≠ 1) →
        ∀ r, toReadRange idx shape ≠ Except.ok r) := by
  refine ⟨?_, ?_, ?_⟩
  · intro i d hi
    simp only [normalizeIndex, if_pos hi]
    by_cases hc : i + (d : Int) < 0
    · rw [if_pos (Or.inl hc), if_pos hc]
    · rw [if_neg (by omega), if_neg hc]
  · intro start stop k rest d ds hk hlen
    have hps : processSlice start stop (some k) d = Except.error PyErrKind.valueError := by
      simp only [processSlice]
      rw [if_pos hk]
    unfold toReadRange
    rw [if_neg (by simp [hlen]), if_neg (by simp [hlen])]
    simp [toReadRangeLoop, hps]
  · intro idx shape hlen hbad r hr
    unfold toReadRange at hr
    rw [if_neg (by omega), if_neg (by omega)] at hr
    cases hl : toReadRangeLoop idx shape with
    | error e => simp [hl] at hr
    | ok p => exact toReadRangeLoop_bad_step idx shape hlen hbad p hl

/-- Witness for the amended C4: `-2` on size 5 normalizes (to 3), `-7` on
size 5 is rejected, and a step-2 slice is rejected with `ValueError`. -/
theorem c4_step_rejected_negatives_normalized_witness :
    normalizeIndex (-2) 5 = Except.ok 3 ∧
    normalizeIndex (-7) 5 = Except.error PyErrKind.indexError ∧
    toReadRange [IndexType.slice (some 0) (some 4) (some 2)] [5] =
      Except.error PyErrKind.valueError := by
  have h := c4_step_rejected_negatives_normalized
  refine ⟨?_, ?_, ?_⟩
  · have hx := h.1 (-2) 5 (by decide)
    rw [hx]
    decide
  · have hx := h.1 (-7) 5 (by decide)
    rw [hx]
    decide
  · exact h.2.1 (some 0) (some 4) 2 [] 5 [] (by decide) rfl

/-- `OmFileReader::read_into` from `src/io/reader.rs`, up to the point the
C decoder takes over: check the element type, resolve the I/O-size
defaults, validate that the requested rank matches the stored rank and the
destination-cube argument lengths, and only then initialize the decoder and
let `backend.decode` issue its index/data reads. The reads the decode loop
would perform are abstracted as `decodeReads` (driven by the C
`om_decoder_next_index_read` / `om_decoder_next_data_read`); the second
component of the result is the list of `(offset, count)` backend reads
performed. -/
def read_into (typeMatches : Bool) (storedDims : List Nat)
    (dimRead : List (Nat × Nat)) (intoCubeOffset intoCubeDimension : List Nat)
    (ioSizeMax ioSizeMerge : Option Nat) (decodeReads : List (Nat × Nat)) :
    Except OmError Unit × List (Nat × Nat) :=
  let _io_size_max := ioSizeMax.getD 65536
  let _io_size_merge := ioSizeMerge.getD 512
  if typeMatches = false then (Except.error OmError.invalidDataType, [])
  else if storedDims.length ≠ dimRead.length ∨
      dimRead.length ≠ intoCubeOffset.length ∨
      dimRead.length ≠ intoCubeDimension.length then
    (Except.error OmError.mismatchingCubeDimensionLength, [])
  else (Except.ok (), decodeReads)

/-- C5: on an array variable of matching element type, a rank mismatch
between the requested ranges and the stored dimensions (or the
destination-cube offset/dimension arguments) makes `read_into` return
`MismatchingCubeDimensionLength` with no backend read performed. -/
theorem c5_rank_mismatch_before_io (storedDims : List Nat)
    (dimRead : List (Nat × Nat)) (intoCubeOffset intoCubeDimension : List Nat)
    (ioSizeMax ioSizeMerge : Option Nat) (decodeReads : List (Nat × Nat))
    (h : storedDims.length ≠ dimRead.length ∨
        dimRead.length ≠ intoCubeOffset.length ∨
        dimRead.length ≠ intoCubeDimension.length) :
    read_into true storedDims dimRead intoCubeOffset intoCubeDimension
        ioSizeMax ioSizeMerge decodeReads =
      (Except.error OmError.mismatchingCubeDimensionLength, []) := by
  unfold read_into
  rw [if_neg (by simp), if_pos h]

/-- Witness for C5: a rank-1 request against a rank-2 array. -/
theorem c5_rank_mismatch_before_io_witness :
    read_into true [10, 10] [(0, 5)] [0] [5] none none [(100, 64)] =
      (Except.error OmError.mismatchingCubeDimensionLength, []) :=
  c5_rank_mismatch_before_io [10, 10] [(0, 5)] [0] [5] none none [(100, 64)]
    (by decide)

/-- The variable tree of `src/variable_tree.rs`: the `nodes` map as an
association list from names to children-name lists, plus the keys of
`pending_parents` (children that were forward-declared via `set_children`
but never created by `add_node`). -/
structure VariableTree where
  nodes : List (String × List String)
  pending : List String
  deriving DecidableEq, Repr

/-- The children of a node: `tree.nodes.get(name)`'s children, or none for
an absent name. -/
def childrenOf (t : VariableTree) (name : String) : List String :=
  match t.nodes.find? (fun p => p.1 == name) with
  | some p => p.2
  | none => []

/-- The parent→child edge relation of the tree. -/
def treeEdge (t : VariableTree) (x y : String) : Prop :=
  y ∈ childrenOf t x

/-- The tree has a cycle: some name reaches itself by at least one edge. -/
def hasCycle (t : VariableTree) : Prop :=
  ∃ a, Relation.TransGen (treeEdge t) a a

/-- Outcomes of the DFS: a detected cycle, or the modelling artifact of
running out of fuel (shown unreachable at the fuel `check_for_cycles`
uses). -/
inductive DfsErr where
  | fuelExhausted : DfsErr
  | cycleDetected : DfsErr
  deriving DecidableEq, Repr

mutual

/-- The recursive `visit` of `VariableTree::check_for_cycles`: error when
the name is on the current DFS stack, return when already visited,
otherwise mark visited and descend into the children with the name pushed
on the stack (the stack is passed downward, which models the source's
insert-before/remove-after mutation). Structured by fuel, decremented per
recursion depth. -/
def visitCheck (t : VariableTree) : Nat → String → List String → List String →
    Except DfsErr (List String)
  | 0, _, _, _ => Except.error DfsErr.fuelExhausted
  | n + 1, name, visited, stack =>
      if name ∈ stack then Except.error DfsErr.cycleDetected
      else if name ∈ visited then Except.ok visited
      else visitChildren t n (childrenOf t name) (name :: visited) (name :: stack)
termination_by n _ _ _ => (n, 0)

/-- The `for child in node.children` loop inside `visit`, threading the
visited set. -/
def visitChildren (t : VariableTree) : Nat → List String → List String → List String →
    Except DfsErr (List String)
  | _, [], visited, _ => Except.ok visited
  | n, c :: cs, visited, stack =>
      match visitCheck t n c visited stack with
      | Except.error e => Except.error e
      | Except.ok v2 => visitChildren t n cs v2 stack
termination_by n cs _ _ => (n, cs.length + 1)

end

/-- The outer loop of `check_for_cycles` over all node names. -/
def checkLoop (t : VariableTree) (fuel : Nat) :
    List String → List String → Except DfsErr (List String)
  | [], visited => Except.ok visited
  | k :: ks, visited =>
      if k ∈ visited then checkLoop t fuel ks visited
      else
        match visitCheck t fuel k visited [] with
        | Except.error e => Except.error e
        | Except.ok v2 => checkLoop t fuel ks v2

/-- Every name occurring in the tree: the node names and all children
names. -/
def treeUniverse (t : VariableTree) : Finset String :=
  (t.nodes.map Prod.fst ++ (t.nodes.map Prod.snd).flatten).toFinset

/-- `VariableTree::check_for_cycles`: DFS from every node name, with enough
fuel that exhaustion is unreachable. -/
def check_for_cycles (t : VariableTree) : Except DfsErr (List String) :=
  checkLoop t ((treeUniverse t).card + 1) (t.nodes.map Prod.fst) []

/-- Errors of `validate_tree` (`PyValueError`s in the source, distinguished
by their condition). -/
inductive TreeErr where
  | missingChildren : TreeErr
  | cycleDetected : TreeErr
  | fuelExhausted : TreeErr
  deriving DecidableEq, Repr

/-- `VariableTree::validate_tree`: error if some forward-declared child was
never created, then run the cycle check. -/
def validate_tree (t : VariableTree) : Except TreeErr Unit :=
  if t.pending ≠ [] then Except.error TreeErr.missingChildren
  else
    match check_for_cycles t with
    | Except.error DfsErr.cycleDetected => Except.error TreeErr.cycleDetected
    | Except.error DfsErr.fuelExhausted => Except.error TreeErr.fuelExhausted
    | Except.ok _ => Except.ok ()

theorem childrenOf_subset_universe (t : VariableTree) (x y : String)
    (h : y ∈ childrenOf t x) : y ∈ treeUniverse t := by
  unfold childrenOf at h
  unfold treeUniverse
  cases hf : t.nodes.find? (fun p => p.1 == x) with
  | none => rw [hf] at h; simp at h
  | some p =>
      rw [hf] at h
      have hmem := List.mem_of_find?_eq_some hf
      rw [List.mem_toFinset, List.mem_append]
      right
      rw [List.mem_flatten]
      exact ⟨p.2, List.mem_map_of_mem Prod.snd hmem, h⟩

theorem key_mem_universe (t : VariableTree) (k : String)
    (h : k ∈ t.nodes.map Prod.fst) : k ∈ treeUniverse t := by
  unfold treeUniverse
  rw [List.mem_toFinset, List.mem_append]
  exact Or.inl h

theorem edge_source_is_key (t : VariableTree) (x y : String) (h : treeEdge t x y) :
    x ∈ t.nodes.map Prod.fst := by
  unfold treeEdge childrenOf at h
  cases hf : t.nodes.find? (fun p => p.1 == x) with
  | none => rw [hf] at h; simp at h
  | some p =>
      have hpred := List.find?_some hf
      have hmem := List.mem_of_find?_eq_some hf
      have hx : p.1 = x := by simpa using hpred
      rw [← hx]
      exact List.mem_map_of_mem Prod.fst hmem

theorem visit_mono (t : VariableTree) : ∀ n : Nat,
    (∀ name v s v', visitCheck t n name v s = Except.ok v' → v ⊆ v' ∧ name ∈ v') ∧
    (∀ cs v s v', visitChildren t n cs v s = Except.ok v' → v ⊆ v') := by
  intro n
  induction n with
  | zero =>
      constructor
      · intro name v s v' h
        simp [visitCheck] at h
      · intro cs v s v' h
        cases cs with
        | nil =>
            simp only [visitChildren] at h
            cases h
            exact List.Subset.refl v
        | cons c cs =>
            simp [visitChildren, visitCheck] at h
  | succ n ih =>
      have hvis : ∀ name v s v', visitCheck t (n + 1) name v s = Except.ok v' →
          v ⊆ v' ∧ name ∈ v' := by
        intro name v s v' h
        simp only [visitCheck] at h
        split at h
        · simp at h
        · split at h
          · rename_i h1 h2
            cases h
            exact ⟨List.Subset.refl _, h2⟩
          · rename_i h1 h2
            have hc := ih.2 _ _ _ _ h
            exact ⟨fun x hx => hc (List.mem_cons_of_mem _ hx), hc (List.mem_cons_self _ _)⟩
      refine ⟨hvis, ?_⟩
      intro cs
      induction cs with
      | nil =>
          intro v s v' h
          simp only [visitChildren] at h
          cases h
          exact List.Subset.refl v
      | cons c cs ihc =>
          intro v s v' h
          simp only [visitChildren] at h
          cases hvc : visitCheck t (n + 1) c v s with
          | error e =>
              rw [hvc] at h
              simp at h
          | ok v2 =>
              rw [hvc] at h
              exact List.Subset.trans (hvis _ _ _ _ hvc).1 (ihc v2 s v' h)

/-- "Black" invariant of the DFS: every fully processed node (visited and
no longer on the stack) has all its children visited and off the stack. -/
def blackInv (t : VariableTree) (v s : List String) : Prop :=
  ∀ x ∈ v, x ∉ s → ∀ y ∈ childrenOf t x, y ∈ v ∧ y ∉ s

/-- No fully processed node lies on a cycle. -/
def noCycBlack (t : VariableTree) (v s : List String) : Prop :=
  ∀ x ∈ v, x ∉ s → ¬ Relation.TransGen (treeEdge t) x x

theorem black_reach (t : VariableTree) (v s : List String) (hA : blackInv t v s)
    (x z : String) (hx : x ∈ v) (hxs : x ∉ s)
    (hr : Relation.ReflTransGen (treeEdge t) x z) : z ∈ v ∧ z ∉ s := by
  induction hr with
  | refl => exact ⟨hx, hxs⟩
  | tail hab hbc ih => exact hA _ ih.1 ih.2 _ hbc

theorem push_gray_inv (t : VariableTree) (v s : List String) (name : String)
    (hA : blackInv t v s) (hN : noCycBlack t v s) (hnv : name ∉ v) :
    blackInv t (name :: v) (name :: s) ∧ noCycBlack t (name :: v) (name :: s) := by
  constructor
  · intro x hxv hxs y hy
    have hxn : x ≠ name := fun he => hxs (he ▸ List.mem_cons_self _ _)
    have hxv' : x ∈ v := by
      rcases List.mem_cons.mp hxv with he | hm
      · exact absurd he hxn
      · exact hm
    have hxs' : x ∉ s := fun hm => hxs (List.mem_cons_of_mem _ hm)
    obtain ⟨hyv, hys⟩ := hA x hxv' hxs' y hy
    refine ⟨List.mem_cons_of_mem _ hyv, ?_⟩
    intro hmem
    rcases List.mem_cons.mp hmem with he | hm
    · exact hnv (he ▸ hyv)
    · exact hys hm
  · intro x hxv hxs
    have hxn : x ≠ name := fun he => hxs (he ▸ List.mem_cons_self _ _)
    have hxv' : x ∈ v := by
      rcases List.mem_cons.mp hxv with he | hm
      · exact absurd he hxn
      · exact hm
    have hxs' : x ∉ s := fun hm => hxs (List.mem_cons_of_mem _ hm)
    exact hN x hxv' hxs'

theorem visit_post (t : VariableTree) : ∀ n : Nat,
    (∀ name v s v', blackInv t v s → noCycBlack t v s →
        visitCheck t n name v s = Except.ok v' →
        blackInv t v' s ∧ noCycBlack t v' s ∧ name ∈ v' ∧ name ∉ s) ∧
    (∀ cs v s v', blackInv t v s → noCycBlack t v s →
        visitChildren t n cs v s = Except.ok v' →
        blackInv t v' s ∧ noCycBlack t v' s ∧ ∀ c ∈ cs, c ∈ v' ∧ c ∉ s) := by
  intro n
  induction n with
  | zero =>
      constructor
      · intro name v s v' hA hN h
        simp [visitCheck] at h
      · intro cs v s v' hA hN h
        cases cs with
        | nil =>
            simp only [visitChildren] at h
            cases h
            exact ⟨hA, hN, by simp⟩
        | cons c cs =>
            simp [visitChildren, visitCheck] at h
  | succ n ih =>
      have hvis : ∀ name v s v', blackInv t v s → noCycBlack t v s →
          visitCheck t (n + 1) name v s = Except.ok v' →
          blackInv t v' s ∧ noCycBlack t v' s ∧ name ∈ v' ∧ name ∉ s := by
        intro name v s v' hA hN h
        simp only [visitCheck] at h
        split at h
        · simp at h
        · rename_i hstack
          split at h
          · rename_i hvisited
            cases h
            exact ⟨hA, hN, hvisited, hstack⟩
          · rename_i hfresh
            obtain ⟨hA1, hN1⟩ := push_gray_inv t v s name hA hN hfresh
            obtain ⟨hA2, hN2, hall⟩ := ih.2 _ _ _ _ hA1 hN1 h
            have hsub := (visit_mono t n).2 _ _ _ _ h
            have hnamev' : name ∈ v' := hsub (List.mem_cons_self _ _)
            -- children of name are black with respect to the popped stack
            have hkids : ∀ y ∈ childrenOf t name, y ∈ v' ∧ y ∉ s := by
              intro y hy
              obtain ⟨hyv, hys⟩ := hall y hy
              exact ⟨hyv, fun hm => hys (List.mem_cons_of_mem _ hm)⟩
            refine ⟨?_, ?_, hnamev', hstack⟩
            · intro x hxv hxs y hy
              by_cases hxn : x = name
              · subst hxn
                exact hkids y hy
              · have hxs' : x ∉ name :: s := by
                  intro hm
                  rcases List.mem_cons.mp hm with he | hm2
                  · exact hxn he
                  · exact hxs hm2
                obtain ⟨hyv, hys⟩ := hA2 x hxv hxs' y hy
                exact ⟨hyv, fun hm => hys (List.mem_cons_of_mem _ hm)⟩
            · intro x hxv hxs
              by_cases hxn : x = name
              · subst hxn
                intro htg
                obtain ⟨y, hy, hrest⟩ := (Relation.TransGen.head'_iff).mp htg
                obtain ⟨hyv, hys⟩ := hall y hy
                have hbr := black_reach t v' (x :: s) hA2 y x hyv hys hrest
                exact hbr.2 (List.mem_cons_self _ _)
              · have hxs' : x ∉ name :: s := by
                  intro hm
                  rcases List.mem_cons.mp hm with he | hm2
                  · exact hxn he
                  · exact hxs hm2
                exact hN2 x hxv hxs'
      refine ⟨hvis, ?_⟩
      intro cs
      induction cs with
      | nil =>
          intro v s v' hA hN h
          simp only [visitChildren] at h
          cases h
          exact ⟨hA, hN, by simp⟩
      | cons c cs ihc =>
          intro v s v' hA hN h
          simp only [visitChildren] at h
          cases hvc : visitCheck t (n + 1) c v s with
          | error e =>
              rw [hvc] at h
              simp at h
          | ok v2 =>
              rw [hvc] at h
              obtain ⟨hA2, hN2, hcv2, hcs2⟩ := hvis _ _ _ _ hA hN hvc
              obtain ⟨hA3, hN3, hall⟩ := ihc v2 s v' hA2 hN2 h
              have hsub := (visit_mono t (n + 1)).2 _ _ _ _ h
              refine ⟨hA3, hN3, ?_⟩
              intro x hx
              rcases List.mem_cons.mp hx with he | hm
              · subst he
                exact ⟨hsub hcv2, hcs2⟩
              · exact hall x hm

/-- Number of universe names not yet visited: the DFS depth bound. -/
def unseen (t : VariableTree) (v : List String) : Nat :=
  ((treeUniverse t).filter (fun x => x ∉ v)).card

theorem unseen_le (t : VariableTree) (v : List String) :
    unseen t v ≤ (treeUniverse t).card :=
  Finset.card_le_card (Finset.filter_subset _ _)

theorem unseen_cons_lt (t : VariableTree) (v : List String) (name : String)
    (hu : name ∈ treeUniverse t) (hv : name ∉ v) :
    unseen t (name :: v) < unseen t v := by
  apply Finset.card_lt_card
  rw [Finset.ssubset_iff_of_subset]
  · refine ⟨name, ?_, ?_⟩
    · rw [Finset.mem_filter]
      exact ⟨hu, hv⟩
    · rw [Finset.mem_filter]
      intro hx
      exact hx.2 (List.mem_cons_self _ _)
  · intro x hx
    rw [Finset.mem_filter] at *
    exact ⟨hx.1, fun hm => hx.2 (List.mem_cons_of_mem _ hm)⟩

theorem unseen_mono (t : VariableTree) (v v2 : List String) (h : v ⊆ v2) :
    unseen t v2 ≤ unseen t v := by
  apply Finset.card_le_card
  intro x hx
  rw [Finset.mem_filter] at *
  exact ⟨hx.1, fun hm => hx.2 (h hm)⟩

theorem visit_fuel (t : VariableTree) : ∀ n : Nat,
    (∀ name v s, name ∈ treeUniverse t → unseen t v < n →
        visitCheck t n name v s ≠ Except.error DfsErr.fuelExhausted) ∧
    (∀ cs v s, (∀ c ∈ cs, c ∈ treeUniverse t) → unseen t v < n →
        visitChildren t n cs v s ≠ Except.error DfsErr.fuelExhausted) := by
  intro n
  induction n with
  | zero =>
      constructor
      · intro name v s _ hlt
        exact absurd hlt (Nat.not_lt_zero _)
      · intro cs v s _ hlt
        exact absurd hlt (Nat.not_lt_zero _)
  | succ n ih =>
      have hvis : ∀ name v s, name ∈ treeUniverse t → unseen t v < n + 1 →
          visitCheck t (n + 1) name v s ≠ Except.error DfsErr.fuelExhausted := by
        intro name v s hu hlt
        simp only [visitCheck]
        split
        · intro hx
          exact DfsErr.noConfusion (Except.error.inj hx)
        · split
          · intro hx
            exact Except.noConfusion hx
          · rename_i hstack hfresh
            apply ih.2
            · intro c hc
              exact childrenOf_subset_universe t name c hc
            · have := unseen_cons_lt t v name hu hfresh
              omega
      refine ⟨hvis, ?_⟩
      intro cs
      induction cs with
      | nil =>
          intro v s _ _
          simp only [visitChildren]
          intro hx
          exact Except.noConfusion hx
      | cons c cs ihc =>
          intro v s hcu hlt
          simp only [visitChildren]
          cases hvc : visitCheck t (n + 1) c v s with
          | error e =>
              cases e with
              | fuelExhausted =>
                  exact absurd hvc (hvis c v s (hcu c (List.mem_cons_self _ _)) hlt)
              | cycleDetected =>
                  intro hx
                  exact DfsErr.noConfusion (Except.error.inj hx)
          | ok v2 =>
              have hsub := (visit_mono t (n + 1)).1 _ _ _ _ hvc
              exact ihc v2 s (fun x hx => hcu x (List.mem_cons_of_mem _ hx))
                (lt_of_le_of_lt (unseen_mono t v v2 hsub.1) hlt)

/-- The DFS stack is always a path: each entry is a parent of the one
pushed after it, ending at the currently visited name. -/
def stackPath (t : VariableTree) : String → List String → Prop
  | _, [] => True
  | name, a :: rest => treeEdge t a name ∧ stackPath t a rest

theorem stackPath_reaches (t : VariableTree) :
    ∀ (s : List String) (name : String), stackPath t name s →
      ∀ x ∈ s, Relation.ReflTransGen (treeEdge t) x name := by
  intro s
  induction s with
  | nil =>
      intro name _ x hx
      simp at hx
  | cons a rest ih =>
      intro name hp x hx
      obtain ⟨hedge, hrest⟩ := hp
      rcases List.mem_cons.mp hx with he | hm
      · subst he
        exact Relation.ReflTransGen.single hedge
      · exact Relation.ReflTransGen.tail (ih a hrest x hm) hedge

theorem stack_hit_cycle (t : VariableTree) (name : String) (s : List String)
    (hp : stackPath t name s) (hmem : name ∈ s) :
    Relation.TransGen (treeEdge t) name name := by
  cases s with
  | nil => simp at hmem
  | cons a rest =>
      obtain ⟨hedge, hrest⟩ := hp
      rcases List.mem_cons.mp hmem with he | hm
      · subst he
        exact Relation.TransGen.single hedge
      · exact Relation.TransGen.tail' (stackPath_reaches t rest a hrest name hm) hedge

theorem visit_no_cycle (t : VariableTree) (hacyc : ¬ hasCycle t) : ∀ n : Nat,
    (∀ name v s, stackPath t name s →
        visitCheck t n name v s ≠ Except.error DfsErr.cycleDetected) ∧
    (∀ cs v s, (∀ c ∈ cs, stackPath t c s) →
        visitChildren t n cs v s ≠ Except.error DfsErr.cycleDetected) := by
  intro n
  induction n with
  | zero =>
      constructor
      · intro name v s _
        simp only [visitCheck]
        intro hx
        exact DfsErr.noConfusion (Except.error.inj hx)
      · intro cs v s _
        cases cs with
        | nil =>
            simp only [visitChildren]
            intro hx
            exact Except.noConfusion hx
        | cons c cs =>
            simp only [visitChildren, visitCheck]
            intro hx
            exact DfsErr.noConfusion (Except.error.inj hx)
  | succ n ih =>
      have hvis : ∀ name v s, stackPath t name s →
          visitCheck t (n + 1) name v s ≠ Except.error DfsErr.cycleDetected := by
        intro name v s hp
        simp only [visitCheck]
        split
        · rename_i hmem
          intro _
          exact hacyc ⟨name, stack_hit_cycle t name s hp hmem⟩
        · split
          · intro hx
            exact Except.noConfusion hx
          · apply ih.2
            intro c hc
            exact ⟨hc, hp⟩
      refine ⟨hvis, ?_⟩
      intro cs
      induction cs with
      | nil =>
          intro v s _
          simp only [visitChildren]
          intro hx
          exact Except.noConfusion hx
      | cons c cs ihc =>
          intro v s hcp
          simp only [visitChildren]
          cases hvc : visitCheck t (n + 1) c v s with
          | error e =>
              cases e with
              | cycleDetected =>
                  exact absurd hvc (hvis c v s (hcp c (List.mem_cons_self _ _)))
              | fuelExhausted =>
                  intro hx
                  exact DfsErr.noConfusion (Except.error.inj hx)
          | ok v2 =>
              exact ihc v2 s (fun x hx => hcp x (List.mem_cons_of_mem _ hx))

theorem checkLoop_mono (t : VariableTree) (f : Nat) :
    ∀ (ks : List String) (v V : List String), checkLoop t f ks v = Except.ok V → v ⊆ V := by
  intro ks
  induction ks with
  | nil =>
      intro v V h
      simp only [checkLoop] at h
      cases h
      exact List.Subset.refl v
  | cons k ks ih =>
      intro v V h
      simp only [checkLoop] at h
      split at h
      · exact ih v V h
      · cases hvc : visitCheck t f k v [] with
        | error e =>
            rw [hvc] at h
            simp at h
        | ok v2 =>
            rw [hvc] at h
            exact List.Subset.trans ((visit_mono t f).1 _ _ _ _ hvc).1 (ih v2 V h)

theorem checkLoop_keys (t : VariableTree) (f : Nat) :
    ∀ (ks : List String) (v V : List String), checkLoop t f ks v = Except.ok V →
      ∀ k ∈ ks, k ∈ V := by
  intro ks
  induction ks with
  | nil =>
      intro v V _ k hk
      simp at hk
  | cons k0 ks ih =>
      intro v V h k hk
      simp only [checkLoop] at h
      rcases List.mem_cons.mp hk with he | hm
      · subst he
        split at h
        · rename_i hin
          exact checkLoop_mono t f ks v V h hin
        · cases hvc : visitCheck t f k v [] with
          | error e =>
              rw [hvc] at h
              simp at h
          | ok v2 =>
              rw [hvc] at h
              exact checkLoop_mono t f ks v2 V h ((visit_mono t f).1 _ _ _ _ hvc).2
      · split at h
        · exact ih v V h k hm
        · cases hvc : visitCheck t f k0 v [] with
          | error e =>
              rw [hvc] at h
              simp at h
          | ok v2 =>
              rw [hvc] at h
              exact ih v2 V h k hm

theorem checkLoop_inv (t : VariableTree) (f : Nat) :
    ∀ (ks : List String) (v V : List String), blackInv t v [] → noCycBlack t v [] →
      checkLoop t f ks v = Except.ok V → blackInv t V [] ∧ noCycBlack t V [] := by
  intro ks
  induction ks with
  | nil =>
      intro v V hA hN h
      simp only [checkLoop] at h
      cases h
      exact ⟨hA, hN⟩
  | cons k ks ih =>
      intro v V hA hN h
      simp only [checkLoop] at h
      split at h
      · exact ih v V hA hN h
      · cases hvc : visitCheck t f k v [] with
        | error e =>
            rw [hvc] at h
            simp at h
        | ok v2 =>
            rw [hvc] at h
            obtain ⟨hA2, hN2, _, _⟩ := (visit_post t f).1 _ _ _ _ hA hN hvc
            exact ih v2 V hA2 hN2 h

theorem checkLoop_ok (t : VariableTree) (hacyc : ¬ hasCycle t) :
    ∀ (ks : List String) (v : List String), (∀ k ∈ ks, k ∈ treeUniverse t) →
      ∃ V, checkLoop t ((treeUniverse t).card + 1) ks v = Except.ok V := by
  intro ks
  induction ks with
  | nil =>
      intro v _
      exact ⟨v, rfl⟩
  | cons k ks ih =>
      intro v hku
      simp only [checkLoop]
      split
      · exact ih v (fun x hx => hku x (List.mem_cons_of_mem _ hx))
      · cases hvc : visitCheck t ((treeUniverse t).card + 1) k v [] with
        | error e =>
            cases e with
            | fuelExhausted =>
                exact absurd hvc ((visit_fuel t _).1 k v []
                  (hku k (List.mem_cons_self _ _))
                  (Nat.lt_succ_of_le (unseen_le t v)))
            | cycleDetected =>
                exact absurd hvc ((visit_no_cycle t hacyc _).1 k v [] trivial)
        | ok v2 =>
            exact ih v2 (fun x hx => hku x (List.mem_cons_of_mem _ hx))

/-- C8: `validate_tree` succeeds exactly on the fully resolved acyclic
trees — it returns an error whenever the parent→child graph has a cycle or
some forward-declared child was never created, and `Ok` otherwise. -/
theorem c8_validate_tree_iff (t : VariableTree) :
    validate_tree t = Except.ok () ↔ (t.pending = [] ∧ ¬ hasCycle t) := by
  constructor
  · intro h
    unfold validate_tree at h
    split at h
    · simp at h
    · rename_i hpend
      have hpend' : t.pending = [] := by
        by_contra hc
        exact hpend hc
      refine ⟨hpend', ?_⟩
      cases hc : check_for_cycles t with
      | error e =>
          rw [hc] at h
          cases e <;> simp at h
      | ok V =>
          intro ⟨a, htg⟩
          obtain ⟨y, hy, _⟩ := (Relation.TransGen.head'_iff).mp htg
          have hkey : a ∈ t.nodes.map Prod.fst := edge_source_is_key t a y hy
          have hmem : a ∈ V := checkLoop_keys t _ _ [] V hc a hkey
          have hinv := checkLoop_inv t _ _ [] V
            (by intro x hx; simp at hx) (by intro x hx; simp at hx) hc
          exact hinv.2 a hmem (by simp) htg
  · intro ⟨hpend, hacyc⟩
    unfold validate_tree
    rw [if_neg (by simp [hpend])]
    obtain ⟨V, hV⟩ := checkLoop_ok t hacyc (t.nodes.map Prod.fst) []
      (fun k hk => key_mem_universe t k hk)
    unfold check_for_cycles
    rw [hV]
